import Mathlib

/-!
Verification development for the nix-analisa dependency-graph visualizer.

This file shallowly embeds the algorithmic core of the repository (quadtree
construction, Barnes-Hut repulsion, the physics integration step, the render
graph rebuild, the highlight/related-nodes engine and the root-path BFS) and
proves or refutes the frozen specification claims about it.

Modelling conventions, used consistently below:

* Machine floats.  Coordinates fed into quadtree construction are modelled by
  the type `EFloat`, an exact rational together with the IEEE special values
  NaN and plus or minus infinity; the Rust-specific semantics of
  `f32::min`/`f32::max` (a NaN operand is ignored) and of IEEE comparisons
  (any comparison involving NaN is false) are reproduced faithfully.  All
  other float arithmetic is modelled by exact rational arithmetic: rounding
  of `f32`/`f64` operations and signed zeros are not modelled.  Decimal
  literals of the source are carried over exactly.

* Transcendental library functions (square root, powf, ln, cos, sin), the
  float value of TAU and the std SipHash hasher behind `util::stable_pair`
  have no algebraic role in any claim below.  They are collected in the
  record `TransOps` and every statement is proved for an arbitrary
  interpretation of that record (adding explicitly stated hypotheses, such
  as positivity of the square root, where a claim needs them).

* Loops.  `while` loops of the source are translated into structurally
  recursive functions.  Where the source loop's termination rests on an
  invariant (BFS work queues, the bounded highlight expansion), the
  recursion carries an explicit fuel argument whose initial value is a
  proven upper bound on the number of iterations the source loop can
  perform, so the fuel never runs out on the executions the claims are
  about; the relevant theorems are proved for every fuel value or for the
  concrete bound, as appropriate.

* Rust `HashMap`/`HashSet` values are modelled by association lists (kept in
  insertion order, which fixes the iteration order the source leaves
  unspecified) and by `Finset`s respectively.

* UI-only state (scratch buffers, FPS counters, search and details-panel
  caches) is omitted from the modelled records; the rebuild of the render
  graph only ever clears those fields and no modelled claim reads them.
-/

/-- Abstract interpretations of the float library functions and of the std
hasher used by the source.  No claim below depends on their concrete values;
theorems quantify over an arbitrary `TransOps`. -/
structure TransOps where
  fsqrt : ℚ → ℚ
  fpow : ℚ → ℚ → ℚ
  fln : ℚ → ℚ
  fcos : ℚ → ℚ
  fsin : ℚ → ℚ
  tau : ℚ
  hash64 : String → ℕ

/-- 2D vectors over exact rationals, modelling egui `Vec2` values. -/
abbrev VecQ : Type := ℚ × ℚ

/-- Componentwise scaling, modelling `Vec2 * f32`. -/
def vscale (s : ℚ) (v : VecQ) : VecQ := (v.1 * s, v.2 * s)

/-- Componentwise division by a scalar, modelling `Vec2 / f32`. -/
def vdiv (v : VecQ) (s : ℚ) : VecQ := (v.1 / s, v.2 / s)

/-- Dot product of two vectors, modelling `Vec2::dot`. -/
def vdot (a b : VecQ) : ℚ := a.1 * b.1 + a.2 * b.2

/-- Squared length, modelling `Vec2::length_sq`. -/
def lensq (v : VecQ) : ℚ := v.1 * v.1 + v.2 * v.2

/-- Rust `clamp(lo, hi)` on rationals. -/
def qclamp (x lo hi : ℚ) : ℚ := if x < lo then lo else if hi < x then hi else x

/-- An `f32` value: NaN, one of the two infinities, or a finite value
(modelled exactly as a rational). -/
inductive EFloat where
  | nan : EFloat
  | inf : EFloat
  | ninf : EFloat
  | fin (q : ℚ) : EFloat
deriving DecidableEq

/-- Whether the value is finite, modelling `f32::is_finite`. -/
def EFloat.isFinite : EFloat → Bool
  | .fin _ => true
  | _ => false

/-- IEEE comparison `a <= b`: false whenever either side is NaN. -/
def EFloat.le : EFloat → EFloat → Bool
  | .nan, _ => false
  | _, .nan => false
  | .ninf, _ => true
  | _, .ninf => false
  | _, .inf => true
  | .inf, _ => false
  | .fin a, .fin b => decide (a ≤ b)

/-- Rust `f32::min`: if one operand is NaN the other is returned. -/
def EFloat.rmin : EFloat → EFloat → EFloat
  | .nan, y => y
  | x, .nan => x
  | x, y => if x.le y then x else y

/-- Rust `f32::max`: if one operand is NaN the other is returned. -/
def EFloat.rmax : EFloat → EFloat → EFloat
  | .nan, y => y
  | x, .nan => x
  | x, y => if x.le y then y else x

/-- The rational payload of a finite value (0 for the special values; only
applied after an `isFinite` check, mirroring how the source only does
arithmetic on values it has checked to be finite). -/
def EFloat.toQ : EFloat → ℚ
  | .fin q => q
  | _ => 0

/-- IEEE `x >= c` against a finite bound `c`; false when `x` is NaN. -/
def EFloat.geQ (x : EFloat) (c : ℚ) : Bool := EFloat.le (.fin c) x

/-- IEEE addition on `f32` values (signed zeros conflated). -/
def EFloat.add : EFloat → EFloat → EFloat
  | .nan, _ => .nan
  | _, .nan => .nan
  | .inf, .ninf => .nan
  | .ninf, .inf => .nan
  | .inf, _ => .inf
  | _, .inf => .inf
  | .ninf, _ => .ninf
  | _, .ninf => .ninf
  | .fin a, .fin b => .fin (a + b)

/-- IEEE division of an `f32` value by a finite value (signed zeros
conflated; only ever applied with a positive divisor in the source). -/
def EFloat.divQ : EFloat → ℚ → EFloat
  | .nan, _ => .nan
  | .inf, q => if q < 0 then .ninf else if 0 < q then .inf else .nan
  | .ninf, q => if q < 0 then .inf else if 0 < q then .ninf else .nan
  | .fin a, q =>
      if q = 0 then (if a = 0 then .nan else if 0 < a then .inf else .ninf)
      else .fin (a / q)

/-! ## Quadtree (src/app/physics/quadtree.rs) -/

/-- Leaf capacity constant of the quadtree. -/
def QUADTREE_LEAF_CAPACITY : ℕ := 12

/-- Maximum subdivision depth of the quadtree. -/
def QUADTREE_MAX_DEPTH : ℕ := 10

/-- Square bounds of a quadtree node (`QuadBounds`).  The fields are exact
rationals: construction only produces them after the finiteness check of
`from_points`. -/
structure QuadBounds where
  center : VecQ
  halfExtent : ℚ
deriving DecidableEq

/-- Bounding box of a point list, modelling `QuadBounds::from_points`: fold
Rust `min`/`max` starting from the infinities, fail if any of the four fold
results is non-finite, then inflate and square up the spans. -/
def QuadBounds.fromPointsE (points : List (EFloat × EFloat)) : Option QuadBounds :=
  let minx := points.foldl (fun acc p => EFloat.rmin acc p.1) EFloat.inf
  let miny := points.foldl (fun acc p => EFloat.rmin acc p.2) EFloat.inf
  let maxx := points.foldl (fun acc p => EFloat.rmax acc p.1) EFloat.ninf
  let maxy := points.foldl (fun acc p => EFloat.rmax acc p.2) EFloat.ninf
  if minx.isFinite && miny.isFinite && maxx.isFinite && maxy.isFinite then
    let spanX := max (maxx.toQ - minx.toQ) 1
    let spanY := max (maxy.toQ - miny.toQ) 1
    some { center := ((minx.toQ + maxx.toQ) * (1/2), (miny.toQ + maxy.toQ) * (1/2)),
           halfExtent := (max spanX spanY) * (1/2) + 1 }
  else none

/-- Containment test for a finite query point, modelling
`QuadBounds::contains`. -/
def QuadBounds.containsQ (b : QuadBounds) (p : VecQ) : Bool :=
  decide (b.center.1 - b.halfExtent ≤ p.1) && decide (p.1 ≤ b.center.1 + b.halfExtent) &&
  decide (b.center.2 - b.halfExtent ≤ p.2) && decide (p.2 ≤ b.center.2 + b.halfExtent)

/-- Child bounds for a quadrant, modelling `QuadBounds::child`. -/
def QuadBounds.child (b : QuadBounds) (quadrant : ℕ) : QuadBounds :=
  let quarter := b.halfExtent * (1/2)
  let offset : VecQ :=
    match quadrant with
    | 0 => (-quarter, -quarter)
    | 1 => (quarter, -quarter)
    | 2 => (-quarter, quarter)
    | _ => (quarter, quarter)
  { center := (b.center.1 + offset.1, b.center.2 + offset.2), halfExtent := quarter }

/-- Side length of the bounds, modelling `QuadBounds::side_length`. -/
def QuadBounds.sideLength (b : QuadBounds) : ℚ := b.halfExtent * 2

/-- Minimum squared distance between two bounds, modelling
`QuadBounds::distance_sq_to`. -/
def QuadBounds.distSqTo (a b : QuadBounds) : ℚ :=
  let dx := |a.center.1 - b.center.1| - (a.halfExtent + b.halfExtent)
  let dy := |a.center.2 - b.center.2| - (a.halfExtent + b.halfExtent)
  (max dx 0) * (max dx 0) + (max dy 0) * (max dy 0)

/-- A quadtree node (`QuadNode`).  `children` lists the present child
subtrees in quadrant order: the four optional child slots of the source are
only ever iterated in order with absent slots skipped, so the list of
present children is a faithful rendering.  `com` is the center of mass,
whose scalar type is `EFloat` for raw f32 input and `ℚ` for the physics
step's finite positions. -/
inductive QuadTree (β : Type) where
  | mk (bounds : QuadBounds) (com : β × β) (mass : ℚ) (indices : List ℕ)
       (children : List (QuadTree β)) : QuadTree β

/-- The bounds of a quadtree node. -/
def QuadTree.bounds {β : Type} : QuadTree β → QuadBounds
  | .mk b _ _ _ _ => b

/-- The center of mass of a quadtree node. -/
def QuadTree.com {β : Type} : QuadTree β → β × β
  | .mk _ c _ _ _ => c

/-- The mass of a quadtree node (the number of points below it, stored by
the source as an `f32`; counts are modelled exactly). -/
def QuadTree.mass {β : Type} : QuadTree β → ℚ
  | .mk _ _ m _ _ => m

/-- The point indices held by a quadtree leaf. -/
def QuadTree.indices {β : Type} : QuadTree β → List ℕ
  | .mk _ _ _ idx _ => idx

/-- The present children of a quadtree node, in quadrant order. -/
def QuadTree.children {β : Type} : QuadTree β → List (QuadTree β)
  | .mk _ _ _ _ cs => cs

/-- The scalar operations `build_node` performs on raw coordinates, abstracted
over the coordinate type so that the single source function is translated
once and instantiated at `EFloat` (raw f32 input) and at `ℚ` (the finite
positions of the physics step). -/
structure CoordOps (β : Type) where
  quadrantTest : β → ℚ → Bool
  addC : β → β → β
  zeroC : β
  divMass : β → ℚ → β

/-- Quadrant selection around the node center, modelling
`QuadBounds::quadrant_for` (ties go to the positive side; NaN coordinates
compare false and land in quadrant 0). -/
def quadrantOf {β : Type} (K : CoordOps β) (b : QuadBounds) (p : β × β) : ℕ :=
  match K.quadrantTest p.1 b.center.1, K.quadrantTest p.2 b.center.2 with
  | false, false => 0
  | true, false => 1
  | false, true => 2
  | true, true => 3

/-- Recursive quadtree construction, modelling `QuadNode::build_node`.  The
source recursion is bounded by `QUADTREE_MAX_DEPTH`; `fuel` is the number of
subdivision levels still allowed (`QUADTREE_MAX_DEPTH - depth`), so `fuel = 0`
is exactly the source's `depth >= QUADTREE_MAX_DEPTH` check. -/
def buildNode {β : Type} (K : CoordOps β) :
    ℕ → QuadBounds → List ℕ → List (β × β) → QuadTree β
  | fuel, bounds, indices, positions =>
    let sum := indices.foldl
      (fun acc i =>
        let p := positions.getD i (K.zeroC, K.zeroC)
        (K.addC acc.1 p.1, K.addC acc.2 p.2))
      (K.zeroC, K.zeroC)
    let mass : ℚ := indices.length
    let com := if 0 < mass then (K.divMass sum.1 mass, K.divMass sum.2 mass) else sum
    match fuel with
    | 0 => .mk bounds com mass indices []
    | fuel + 1 =>
      if indices.length ≤ QUADTREE_LEAF_CAPACITY then .mk bounds com mass indices []
      else
        let qOf := fun i => quadrantOf K bounds (positions.getD i (K.zeroC, K.zeroC))
        let buckets := [0, 1, 2, 3].map (fun q => (q, indices.filter (fun i => qOf i = q)))
        let nonEmpty := (buckets.filter (fun b => ¬ b.2 = [])).length
        if nonEmpty ≤ 1 then .mk bounds com mass indices []
        else
          .mk bounds com mass []
            (buckets.filterMap (fun b =>
              if b.2 = [] then none
              else some (buildNode K fuel (bounds.child b.1) b.2 positions)))

/-- Coordinate operations at raw `f32` values. -/
def efloatCoordOps : CoordOps EFloat :=
  { quadrantTest := fun x c => x.geQ c
    addC := EFloat.add
    zeroC := .fin 0
    divMass := EFloat.divQ }

/-- Coordinate operations at finite (exact rational) values. -/
def ratCoordOps : CoordOps ℚ :=
  { quadrantTest := fun x c => decide (c ≤ x)
    addC := (· + ·)
    zeroC := 0
    divMass := (· / ·) }

/-- Quadtree construction from raw `f32` positions, modelling
`QuadNode::build`. -/
def QuadTree.buildE (positions : List (EFloat × EFloat)) : Option (QuadTree EFloat) :=
  (QuadBounds.fromPointsE positions).map
    (fun b => buildNode efloatCoordOps QUADTREE_MAX_DEPTH b (List.range positions.length) positions)

/-- Bounding box of a list of finite positions: the same fold as
`QuadBounds::from_points`, seeded at the first point.  Over finite values the
source's fold from the infinities equals this fold, and its finiteness check
is equivalent to the list being nonempty. -/
def QuadBounds.fromPointsQ (points : List VecQ) : Option QuadBounds :=
  match points with
  | [] => none
  | p :: rest =>
    let minx := rest.foldl (fun acc q => min acc q.1) p.1
    let miny := rest.foldl (fun acc q => min acc q.2) p.2
    let maxx := rest.foldl (fun acc q => max acc q.1) p.1
    let maxy := rest.foldl (fun acc q => max acc q.2) p.2
    let spanX := max (maxx - minx) 1
    let spanY := max (maxy - miny) 1
    some { center := ((minx + maxx) * (1/2), (miny + maxy) * (1/2)),
           halfExtent := (max spanX spanY) * (1/2) + 1 }

/-- Quadtree construction from finite positions, modelling `QuadNode::build`
as invoked by the physics step on the scratch position buffer. -/
def QuadTree.buildQ (positions : List VecQ) : Option (QuadTree ℚ) :=
  (QuadBounds.fromPointsQ positions).map
    (fun b => buildNode ratCoordOps QUADTREE_MAX_DEPTH b (List.range positions.length) positions)

/-- Leaf test, modelling `QuadNode::is_leaf` (all child slots absent). -/
def QuadTree.isLeaf {β : Type} (t : QuadTree β) : Bool := t.children.isEmpty

/-- The multiset of point indices stored in the leaves below a node.  The
recursion is bounded by the tree depth; every tree produced by `buildNode`
with construction fuel `f` is fully traversed with fuel `f + 1`. -/
def QuadTree.indicesAll {β : Type} : ℕ → QuadTree β → Multiset ℕ
  | 0, _ => 0
  | fuel + 1, .mk _ _ _ idx children =>
      (idx : Multiset ℕ) + (children.map (QuadTree.indicesAll fuel)).sum

/-! ## Forces (src/app/physics/forces.rs) -/

/-- Collision tuning passed through the traversal, modelling
`CollisionParams`. -/
structure CollisionParams where
  collision_strength : ℚ
  max_collision_distance_sq : ℚ

/-- Pairwise repulsion term, modelling `repulsion_between`. -/
def repulsion_between (R : TransOps) (point_a point_b : VecQ)
    (repulsion_strength softening : ℚ) : VecQ :=
  let delta := point_a - point_b
  let distance_sq := lensq delta
  let distance := R.fsqrt distance_sq
  let direction := if (1/10000 : ℚ) < distance then vdiv delta distance else ((1, 0) : VecQ)
  vscale (repulsion_strength / (distance_sq + softening)) direction

/-- Barnes-Hut repulsion traversal, modelling
`accumulate_repulsion_for_node`.  The source adds into a mutable force; the
model returns the total added.  The recursion descends one tree level per
call, so fuel `QUADTREE_MAX_DEPTH + 1` fully traverses every built tree. -/
def accumulate_repulsion (R : TransOps) :
    ℕ → QuadTree ℚ → ℕ → List VecQ → ℚ → ℚ → ℚ → VecQ
  | 0, _, _, _, _, _, _ => 0
  | fuel + 1, node, index, positions, repulsion_strength, softening, theta =>
    if node.mass ≤ 0 then 0
    else
      let point := positions.getD index 0
      if node.isLeaf then
        node.indices.foldl
          (fun acc other_index =>
            if other_index = index then acc
            else acc + repulsion_between R point (positions.getD other_index 0)
                   repulsion_strength softening)
          0
      else
        let delta := point - node.com
        let distance_sq := max (lensq delta) (1/10000)
        let distance := R.fsqrt distance_sq
        let can_approximate := (!node.bounds.containsQ point)
          && decide (node.bounds.sideLength / distance < theta)
          && decide (1 < node.mass)
        if can_approximate then
          vscale ((repulsion_strength * node.mass) / (distance_sq + softening)) (vdiv delta distance)
        else
          node.children.foldl
            (fun acc child =>
              acc + accumulate_repulsion R fuel child index positions
                      repulsion_strength softening theta)
            0

/-- One collision impulse between a concrete point pair, modelling the leaf
body of `accumulate_collision_pairs`. -/
def collisionPush (R : TransOps) (positions : List VecQ) (radii : List ℚ)
    (params : CollisionParams) (a b : ℕ) (forces : List VecQ) : List VecQ :=
  let delta := positions.getD a 0 - positions.getD b 0
  let distance_sq := lensq delta
  let distance := R.fsqrt distance_sq
  let direction :=
    if (1/10000 : ℚ) < distance then vdiv delta distance
    else
      let angle := ((a : ℚ) * 0.618034 + (b : ℚ) * 0.414214) * R.tau
      ((R.fcos angle, R.fsin angle) : VecQ)
  let min_distance := (radii.getD a 0 + radii.getD b 0) * 4.2
  if distance < min_distance then
    let overlap_push := (min_distance - distance) * params.collision_strength
    let fs1 := forces.set a (forces.getD a 0 + vscale overlap_push direction)
    fs1.set b (fs1.getD b 0 - vscale overlap_push direction)
  else forces

/-- All ordered pairs `i < j` of one leaf's index list, modelling the
self-pair double loop of `accumulate_collision_pairs`. -/
def leafPairsSelf (push : ℕ → ℕ → List VecQ → List VecQ) :
    List ℕ → List VecQ → List VecQ
  | [], forces => forces
  | i :: rest, forces => leafPairsSelf push rest (rest.foldl (fun acc j => push i j acc) forces)

/-- The child-pair iteration of the same-node case of
`accumulate_collision_pairs`: every present child against itself, then
against every later present child. -/
def collisionPairsAux (step : QuadTree ℚ → QuadTree ℚ → Bool → List VecQ → List VecQ) :
    List (QuadTree ℚ) → List VecQ → List VecQ
  | [], forces => forces
  | c :: rest, forces =>
    let fs1 := step c c true forces
    let fs2 := rest.foldl (fun acc cb => step c cb false acc) fs1
    collisionPairsAux step rest fs2

/-- Quadtree-pruned collision pair accumulation, modelling
`accumulate_collision_pairs`.  Each call descends at least one tree level on
one side, so fuel `2 * QUADTREE_MAX_DEPTH + 1` covers every built tree
pair. -/
def accumulate_collision (R : TransOps) :
    ℕ → QuadTree ℚ → QuadTree ℚ → Bool → List VecQ → List ℚ → CollisionParams →
    List VecQ → List VecQ
  | 0, _, _, _, _, _, _, forces => forces
  | fuel + 1, node_a, node_b, same_node, positions, radii, params, forces =>
    if params.max_collision_distance_sq < QuadBounds.distSqTo node_a.bounds node_b.bounds then
      forces
    else if node_a.isLeaf && node_b.isLeaf then
      if same_node then
        leafPairsSelf (collisionPush R positions radii params) node_a.indices forces
      else
        node_a.indices.foldl
          (fun fs i => node_b.indices.foldl (fun fs2 j => collisionPush R positions radii params i j fs2) fs)
          forces
    else if same_node then
      collisionPairsAux
        (fun x y s fs => accumulate_collision R fuel x y s positions radii params fs)
        node_a.children forces
    else
      let split_a :=
        if node_a.isLeaf then false
        else if node_b.isLeaf then true
        else decide (node_b.bounds.halfExtent ≤ node_a.bounds.halfExtent)
      if split_a then
        node_a.children.foldl
          (fun fs c => accumulate_collision R fuel c node_b false positions radii params fs)
          forces
      else
        node_b.children.foldl
          (fun fs c => accumulate_collision R fuel node_a c false positions radii params fs)
          forces

/-! ## Physics step (src/app/physics/mod.rs) -/

/-- The Barnes-Hut opening-angle constant. -/
def BARNES_HUT_THETA : ℚ := 0.72

/-- A render-space node (`RenderNode`). -/
structure RenderNode where
  id : String
  world_pos : VecQ
  velocity : VecQ
  metric_value : ℕ
  base_radius : ℚ
deriving DecidableEq

/-- Placeholder node for modelling indexed access that the source performs
only at in-bounds indices. -/
def dummyNode : RenderNode :=
  { id := "", world_pos := 0, velocity := 0, metric_value := 0, base_radius := 0 }

/-- The filtered, indexed render view (`RenderGraph`); scratch buffers are
omitted (see the header). -/
structure RenderGraph where
  nodes : List RenderNode
  edges : List (ℕ × ℕ)
  index_by_id : List (String × ℕ)
  outgoing : List (List ℕ)
  incoming : List (List ℕ)
  root_index : Option ℕ
  min_metric : ℕ
  max_metric : ℕ
deriving DecidableEq

/-- Per-tick physics tuning (`PhysicsConfig`, together with the frame delta
the source reads from the same config). -/
structure PhysicsConfig where
  intensity : ℚ
  repulsion_scale : ℚ
  spring_scale : ℚ
  collision_scale : ℚ
  velocity_damping : ℚ
  target_spread : ℚ
  spread_force : ℚ
  delta_seconds : ℚ

/-- The drift-cancellation pass at the end of `step_physics`: subtract the
average of the just-written velocities from every node when it is above the
motion epsilon. -/
def drift_correct (nodes1 : List RenderNode) (node_count : ℚ) : List RenderNode :=
  let average_velocity := vdiv (nodes1.map RenderNode.velocity).sum node_count
  if (0.000001 : ℚ) < lensq average_velocity then
    nodes1.map (fun n => { n with velocity := n.velocity - average_velocity })
  else nodes1

/-- The recentering pass at the end of `step_physics`: subtract the centroid
of the just-written positions from every node when it is above the motion
epsilon. -/
def recenter_correct (nodes2 : List RenderNode) (node_count : ℚ) : List RenderNode :=
  let centroid := vdiv (nodes2.map RenderNode.world_pos).sum node_count
  if (0.000001 : ℚ) < lensq centroid then
    nodes2.map (fun n => { n with world_pos := n.world_pos - centroid })
  else nodes2

set_option maxHeartbeats 1000000 in
/-- One integration step of the force simulation, modelling `step_physics`.
Returns the `any_motion` flag and the updated graph. -/
def step_physics (R : TransOps) (cache : RenderGraph) (config : PhysicsConfig) :
    Bool × RenderGraph :=
  let node_count := cache.nodes.length
  if node_count < 2 then (false, cache)
  else
    let positions := cache.nodes.map RenderNode.world_pos
    let radii := cache.nodes.map RenderNode.base_radius
    let max_radius := radii.foldl max 0
    let intensity := qclamp config.intensity 0.2 2.5
    let repulsion_strength := 78000 * intensity * qclamp config.repulsion_scale 0.25 2.6
    let spring_strength := 0.016 * intensity * qclamp config.spring_scale 0.2 2.2
    let spring_damping : ℚ := 0.22
    let collision_strength := 1.9 * intensity * qclamp config.collision_scale 0.2 2.0
    let center_pull := 0.0011 * intensity
    let root_pull := 0.036 * intensity
    let damping := qclamp (config.velocity_damping - intensity * 0.015) 0.78 0.97
    let softening : ℚ := 620
    let time_step_scale := qclamp (config.delta_seconds * 60) 0.25 3
    let damping_factor := R.fpow damping time_step_scale
    let root_index := match cache.root_index with
      | some i => if i < node_count then some i else none
      | none => none
    let forces0 : List VecQ := List.replicate node_count 0
    let forces1 :=
      match QuadTree.buildQ positions with
      | none => forces0
      | some quadtree =>
        let with_repulsion := (List.range node_count).map
          (fun index => accumulate_repulsion R (QUADTREE_MAX_DEPTH + 1) quadtree index positions
            repulsion_strength softening BARNES_HUT_THETA)
        let max_collision_distance := max_radius * 2 * 4.2
        if 0 < max_collision_distance then
          accumulate_collision R (2 * QUADTREE_MAX_DEPTH + 1) quadtree quadtree true positions radii
            { collision_strength := collision_strength,
              max_collision_distance_sq := max_collision_distance * max_collision_distance }
            with_repulsion
        else with_repulsion
    let forces2 := cache.edges.foldl
      (fun fs e =>
        if node_count ≤ e.1 ∨ node_count ≤ e.2 ∨ e.1 = e.2 then fs
        else
          let na := cache.nodes.getD e.1 dummyNode
          let nb := cache.nodes.getD e.2 dummyNode
          let delta := na.world_pos - nb.world_pos
          let distance_sq := lensq delta
          if distance_sq ≤ (1/10000 : ℚ) * (1/10000) then fs
          else
            let distance := R.fsqrt distance_sq
            let direction := vdiv delta distance
            let preferred := 96 + (na.base_radius + nb.base_radius) * 4
            let spring := (distance - preferred) * spring_strength
            let relative_velocity := na.velocity - nb.velocity
            let damping_force := vdot relative_velocity direction * spring_damping
            let correction := vscale (spring + damping_force) direction
            let fs1 := fs.set e.1 (fs.getD e.1 0 - correction)
            fs1.set e.2 (fs1.getD e.2 0 + correction))
      forces1
    let forces3 := forces2.enum.map
      (fun p =>
        let f1 := p.2 - vscale center_pull (cache.nodes.getD p.1 dummyNode).world_pos
        if root_index = some p.1 then f1 - vscale root_pull (cache.nodes.getD p.1 dummyNode).world_pos
        else f1)
    let target_radius := R.fsqrt (node_count : ℚ) * 42 * qclamp config.target_spread 0.6 2
    let spread_force := qclamp config.spread_force 0 0.08 * intensity
    let forces4 :=
      if 0 < spread_force then
        let radius_sum := cache.nodes.enum.foldl
          (fun acc p => if root_index = some p.1 then acc else acc + R.fsqrt (lensq p.2.world_pos)) 0
        let radius_count : ℕ := cache.nodes.enum.foldl
          (fun acc p => if root_index = some p.1 then acc else acc + 1) 0
        if 0 < radius_count then
          let average_radius := radius_sum / (radius_count : ℚ)
          let radius_error := average_radius - target_radius
          let hard_limit := target_radius * 1.55
          forces3.enum.map
            (fun p =>
              if root_index = some p.1 then p.2
              else
                let position := (cache.nodes.getD p.1 dummyNode).world_pos
                let radius := R.fsqrt (lensq position)
                let direction :=
                  if (1/10000 : ℚ) < radius then vdiv position radius
                  else
                    let angle := ((p.1 : ℚ) * 0.618034 + 0.37) * R.tau
                    ((R.fcos angle, R.fsin angle) : VecQ)
                let f1 := p.2 - vscale (radius_error * spread_force) direction
                if hard_limit < radius then
                  f1 - vscale ((radius - hard_limit) * (spread_force * 2.6 + 0.02)) direction
                else f1)
        else forces3
      else forces3
    let max_force := 165 + intensity * 90
    let max_force_sq := max_force * max_force
    let max_speed := 11 + intensity * 15
    let max_speed_sq := max_speed * max_speed
    let min_sleep_speed_sq := (0.02 : ℚ) * 0.02
    let min_sleep_force_sq := (0.08 : ℚ) * 0.08
    let stepped := cache.nodes.enum.map
      (fun p =>
        let force0 := forces4.getD p.1 0
        let force_sq := lensq force0
        let force := if max_force_sq < force_sq then vscale (max_force / R.fsqrt force_sq) force0 else force0
        let v1 := vscale damping_factor (p.2.velocity + vscale (0.055 * time_step_scale) force)
        let s1 := lensq v1
        let vs2 := if max_speed_sq < s1 then (vscale (max_speed / R.fsqrt s1) v1, max_speed_sq) else (v1, s1)
        let vs3 := if vs2.2 < min_sleep_speed_sq ∧ force_sq < min_sleep_force_sq then (((0, 0) : VecQ), (0 : ℚ)) else vs2
        ({ p.2 with velocity := vs3.1, world_pos := p.2.world_pos + vscale time_step_scale vs3.1 }, vs3.2))
    let nodes1 := stepped.map Prod.fst
    let any_motion := stepped.foldl (fun acc sp => acc || decide ((0.000001 : ℚ) < sp.2)) false
    let nodes2 := drift_correct nodes1 (node_count : ℚ)
    let nodes3 := recenter_correct nodes2 (node_count : ℚ)
    (any_motion, { cache with nodes := nodes3 })

/-! ## Dependency graph and root BFS (src/nix/graph.rs) -/

/-- The sizing/ranking metric selector (`SizeMetric`). -/
inductive SizeMetric where
  | narSize : SizeMetric
  | closureSize : SizeMetric
  | dependencies : SizeMetric
  | reverseDependencies : SizeMetric
deriving DecidableEq

/-- A node of the full dependency graph (`NodeRecord`). -/
structure NodeRecord where
  id : String
  full_path : String
  nar_size : ℕ
  closure_size : ℕ
  references : List String
  referrers : List String
  deriver : Option String
deriving DecidableEq

/-- The metric value of a record, modelling `NodeRecord::metric`. -/
def NodeRecord.metric (node : NodeRecord) (m : SizeMetric) : ℕ :=
  match m with
  | .narSize => node.nar_size
  | .closureSize => node.closure_size
  | .dependencies => node.references.length
  | .reverseDependencies => node.referrers.length

/-- The full dependency graph (`SystemGraph`); the node map is an
association list in a fixed iteration order. -/
structure SystemGraph where
  store_dir : String
  root_id : String
  nodes : List (String × NodeRecord)
  edge_count : ℕ
deriving DecidableEq

/-- Number of nodes, modelling `SystemGraph::node_count`. -/
def SystemGraph.node_count (g : SystemGraph) : ℕ := g.nodes.length

/-- Expansion of one BFS frontier node along its reference list: fresh ids
that exist in the graph are marked visited, given a parent and queued, in
list order.  Returns the updated visited list, parent map and the queued
ids. -/
def bfs_expand (nodes : List (String × NodeRecord)) (current : String) :
    List String → List String → List (String × String) →
    List String × List (String × String) × List String
  | [], visited, parent => (visited, parent, [])
  | next :: rest, visited, parent =>
    match nodes.lookup next with
    | none => bfs_expand nodes current rest visited parent
    | some _ =>
      if next ∈ visited then bfs_expand nodes current rest visited parent
      else
        let r := bfs_expand nodes current rest (visited ++ [next]) (parent ++ [(next, current)])
        (r.1, r.2.1, next :: r.2.2)

/-- The BFS work loop of `shortest_path_from_root`.  Each iteration pops one
queue entry and only ever queues ids it freshly marks visited, so the
number of iterations is bounded by the initial queue length plus the number
of graph nodes; the fuel passed below is that bound. -/
def bfs_loop (nodes : List (String × NodeRecord)) (target : String) :
    ℕ → List String → List String → List (String × String) →
    List String × List (String × String)
  | 0, _, visited, parent => (visited, parent)
  | _ + 1, [], visited, parent => (visited, parent)
  | fuel + 1, current :: rest, visited, parent =>
    if current = target then (visited, parent)
    else
      match nodes.lookup current with
      | none => bfs_loop nodes target fuel rest visited parent
      | some node =>
        let r := bfs_expand nodes current node.references visited parent
        bfs_loop nodes target fuel (rest ++ r.2.2) r.1 r.2.1

/-- Parent-chain walk of the path reconstruction.  The BFS parent map is
acyclic and each step consumes one of its entries, so the fuel passed below
(one more than the map size) never runs out on BFS output. -/
def path_walk (parent : List (String × String)) (root : String) :
    ℕ → String → List String → Option (List String)
  | 0, _, _ => none
  | fuel + 1, cursor, acc =>
    if cursor = root then some acc
    else
      match parent.lookup cursor with
      | none => none
      | some prev => path_walk parent root fuel prev (acc ++ [prev])

/-- Unweighted BFS from the root over forward references, modelling
`SystemGraph::shortest_path_from_root`. -/
def SystemGraph.shortest_path_from_root (g : SystemGraph) (target : String) :
    Option (List String) :=
  match g.nodes.lookup target with
  | none => none
  | some _ =>
    let root := g.root_id
    if target = root then some [root]
    else
      let r := bfs_loop g.nodes target (g.nodes.length + 1) [root] [root] []
      if target ∈ r.1 then
        (path_walk r.2 root (r.2.length + 1) target [target]).map List.reverse
      else none

/-! ## Render graph rebuild (src/app/graph/build.rs, src/app/render_utils.rs,
src/util.rs) -/

/-- The application view state (`ViewModel`), restricted to the fields the
render graph rebuild reads or writes (UI-only fields omitted, see header). -/
structure ViewModel where
  graph : SystemGraph
  metric : SizeMetric
  min_size_mb : ℚ
  max_nodes : ℕ
  selected : Option String
  graph_dirty : Bool
  render_graph_revision : ℕ
  graph_cache : Option RenderGraph
  visible_node_count : ℕ
  visible_edge_count : ℕ

/-- The exact value of `f64::EPSILON`. -/
def epsF64 : ℚ := 1 / 4503599627370496

/-- Log-scale min-max normalization, modelling `normalize_log`. -/
def normalize_log (R : TransOps) (value lo hi : ℕ) : ℚ :=
  let lo1 : ℕ := max lo 1
  let hi1 : ℕ := max hi lo1
  let v1 : ℕ := max value 1
  if |(hi1 : ℚ) - (lo1 : ℚ)| < epsF64 then 0.5
  else
    let denominator := R.fln (hi1 : ℚ) - R.fln (lo1 : ℚ)
    if |denominator| < epsF64 then 0.5
    else qclamp ((R.fln (v1 : ℚ) - R.fln (lo1 : ℚ)) / denominator) 0 1

/-- Node radius from the metric, modelling `node_radius`. -/
def node_radius (R : TransOps) (metric lo hi : ℕ) : ℚ :=
  6 + normalize_log R metric lo hi * 26

/-- Hash-derived stable pair in `[-1, 1]^2`, modelling `util::stable_pair`
over the abstract 64-bit hasher. -/
def stable_pair (R : TransOps) (id : String) : ℚ × ℚ :=
  let hash := R.hash64 id % 2 ^ 64
  let x := ((hash % 4294967296 : ℕ) : ℚ) / 4294967295
  let y := ((hash / 4294967296 % 4294967296 : ℕ) : ℚ) / 4294967295
  (x * 2 - 1, y * 2 - 1)

/-- The initial direction of a freshly created render node: the normalized
stable pair of the id, or the golden-angle fallback when the pair is at the
origin (the direction computation of `ViewModel::make_render_node`). -/
def initial_direction (R : TransOps) (id : String) (index : ℕ) : VecQ :=
  let j := stable_pair R id
  if lensq j ≤ 1/10000 then
    let angle := ((index : ℚ) * 0.618034 + 0.11) * R.tau
    ((R.fcos angle, R.fsin angle) : VecQ)
  else vdiv j (R.fsqrt (lensq j))

/-- Fresh node construction, modelling `ViewModel::make_render_node`. -/
def make_render_node (R : TransOps) (id : String) (index : ℕ) (metric_value : ℕ)
    (base_radius : ℚ) (is_root : Bool) : RenderNode :=
  let direction := initial_direction R id index
  let initial_speed : ℚ := if is_root then 0 else 1.15 + base_radius * 0.022
  { id := id, world_pos := 0, velocity := vscale initial_speed direction,
    metric_value := metric_value, base_radius := base_radius }

/-- The ranked-candidate selection loop of `ViewModel::filtered_node_ids`:
append fresh ids in rank order until the target count is reached. -/
def pick_ranked (target_nodes : ℕ) : List (ℕ × String) → List String → List String
  | [], ids => ids
  | r :: rest, ids =>
    if target_nodes ≤ ids.length then ids
    else if r.2 ∈ ids then pick_ranked target_nodes rest ids
    else pick_ranked target_nodes rest (ids ++ [r.2])

/-- Filtered and ranked node selection, modelling
`ViewModel::filtered_node_ids`.  Rust's stable `sort_by` is modelled by
insertion sort, which is stable for the same total preorder and therefore
produces the identical list. -/
def filtered_node_ids (vm : ViewModel) : List String :=
  let threshold : ℕ := (⌊max vm.min_size_mb 0 * 1024 * 1024⌋).toNat
  let candidates := vm.graph.nodes.filterMap
    (fun p =>
      let m := p.2.metric vm.metric
      let always_include := p.1 = vm.graph.root_id ∨ vm.selected = some p.1
      if threshold ≤ m ∨ always_include then some (m, p.1) else none)
  let ranked := List.insertionSort (fun a b => b.1 ≤ a.1) candidates
  let base0 := if (vm.graph.nodes.lookup vm.graph.root_id).isSome then [vm.graph.root_id] else []
  let base :=
    match vm.selected with
    | some sid =>
      if (vm.graph.nodes.lookup sid).isSome ∧ sid ∉ base0 then base0 ++ [sid] else base0
    | none => base0
  let target_nodes := min (max vm.max_nodes 2) (max vm.graph.nodes.length 2)
  pick_ranked target_nodes ranked base

/-- Lexicographic order on index pairs, the order `sort_unstable` uses on
`(usize, usize)`. -/
def pairLe (a b : ℕ × ℕ) : Prop := a.1 < b.1 ∨ (a.1 = b.1 ∧ a.2 ≤ b.2)

instance : DecidableRel pairLe := fun a b => by
  unfold pairLe
  infer_instance

/-- Removal of consecutive duplicates, modelling `Vec::dedup`. -/
def dedupConsec {α : Type} [DecidableEq α] : List α → List α
  | [] => []
  | [a] => [a]
  | a :: b :: t => if a = b then dedupConsec (b :: t) else a :: dedupConsec (b :: t)

/-- Edge derivation over the included ids, modelling
`ViewModel::collect_edges`: scan forward references, keep in-set non-loop
edges, sort lexicographically and deduplicate. -/
def collect_edges (vm : ViewModel) (ids : List String)
    (index_by_id : List (String × ℕ)) : List (ℕ × ℕ) :=
  let raw := ids.enum.foldl
    (fun acc p =>
      match vm.graph.nodes.lookup p.2 with
      | none => acc
      | some node =>
        acc ++ node.references.filterMap
          (fun target_id =>
            match index_by_id.lookup target_id with
            | some target_index =>
              if p.1 ≠ target_index then some (p.1, target_index) else none
            | none => none))
    []
  dedupConsec (List.insertionSort pairLe raw)

/-- Adjacency lists mirrored from the edge list (the adjacency construction
of `ViewModel::rebuild_render_graph`). -/
def build_adjacency (n : ℕ) (edges : List (ℕ × ℕ)) : List (List ℕ) × List (List ℕ) :=
  edges.foldl
    (fun acc e =>
      if e.1 < n ∧ e.2 < n then
        (acc.1.set e.1 (acc.1.getD e.1 [] ++ [e.2]),
         acc.2.set e.2 (acc.2.getD e.2 [] ++ [e.1]))
      else acc)
    (List.replicate n [], List.replicate n [])

/-- Insert-or-replace on an association list (the semantics of `HashMap`
collection, where a later entry for the same key wins). -/
def assoc_put {β : Type} : List (String × β) → String → β → List (String × β)
  | [], k, v => [(k, v)]
  | (k0, v0) :: t, k, v =>
    if k0 = k then (k0, v) :: t else (k0, v0) :: assoc_put t k v

/-- Removal of a key from an association list (`HashMap::remove`). -/
def assoc_erase {β : Type} : List (String × β) → String → List (String × β)
  | [], _ => []
  | (k0, v0) :: t, k => if k0 = k then t else (k0, v0) :: assoc_erase t k

/-- The continuity-preserving node pass of `ViewModel::rebuild_render_graph`:
carry over a prior node with the same id (refreshing only metric and
radius), otherwise create a fresh node. -/
def carry_nodes (R : TransOps) (root_index : Option ℕ) :
    List (ℕ × String × ℕ × ℚ) → List (String × RenderNode) → List RenderNode
  | [], _ => []
  | row :: rest, prior =>
    match prior.lookup row.2.1 with
    | some node =>
      { node with metric_value := row.2.2.1, base_radius := row.2.2.2 } ::
        carry_nodes R root_index rest (assoc_erase prior row.2.1)
    | none =>
      make_render_node R row.2.1 row.1 row.2.2.1 row.2.2.2 (decide (root_index = some row.1)) ::
        carry_nodes R root_index rest prior

set_option maxHeartbeats 1000000 in
/-- Full render graph rebuild, modelling `ViewModel::rebuild_render_graph`. -/
def rebuild_render_graph (R : TransOps) (vm : ViewModel) : ViewModel :=
  let revision := (vm.render_graph_revision + 1) % 2 ^ 64
  let ids := filtered_node_ids vm
  if ids = [] then
    { vm with
        render_graph_revision := revision, graph_cache := none,
        visible_node_count := 0, visible_edge_count := 0, graph_dirty := false }
  else
    let metrics := ids.map (fun id =>
      match vm.graph.nodes.lookup id with
      | some node => max (node.metric vm.metric) 1
      | none => 1)
    let u64max : ℕ := 2 ^ 64 - 1
    let min_metric0 := metrics.foldl min u64max
    let max_metric0 := metrics.foldl max 0
    let min_metric := if min_metric0 = u64max then 1 else min_metric0
    let max_metric := if max_metric0 < min_metric then min_metric else max_metric0
    let node_radii := metrics.map (fun m => node_radius R m min_metric max_metric)
    let index_by_id := ids.enum.map (fun p => (p.2, p.1))
    let root_index := index_by_id.lookup vm.graph.root_id
    let edges := collect_edges vm ids index_by_id
    let rows := (ids.zip (metrics.zip node_radii)).enum
    let next_nodes :=
      match vm.graph_cache with
      | some cache =>
        carry_nodes R root_index rows (cache.nodes.foldl (fun m n => assoc_put m n.id n) [])
      | none =>
        rows.map (fun row =>
          make_render_node R row.2.1 row.1 row.2.2.1 row.2.2.2 (decide (root_index = some row.1)))
    let adjacency := build_adjacency next_nodes.length edges
    let cache' : RenderGraph :=
      { nodes := next_nodes, edges := edges, index_by_id := index_by_id,
        outgoing := adjacency.1, incoming := adjacency.2, root_index := root_index,
        min_metric := min_metric, max_metric := max_metric }
    { vm with
        render_graph_revision := revision, graph_cache := some cache',
        visible_node_count := next_nodes.length, visible_edge_count := edges.length,
        graph_dirty := false }

/-! ## Highlight engine (src/app/highlight/collect.rs, paths.rs, mod.rs) -/

/-- Depth bound of the related-nodes expansion. -/
def RELATED_DEPTH : ℕ := 1

/-- Total node cap of the related-nodes expansion. -/
def RELATED_NODE_LIMIT : ℕ := 280

/-- Per-source neighbor cap of the related-nodes expansion. -/
def RELATED_NEIGHBOR_CAP : ℕ := 160

/-- Iteration bound of the related-nodes work loops: the single depth-0
queue entry can queue at most `RELATED_NEIGHBOR_CAP` depth-1 entries, and
depth-1 entries are popped without queuing, so no run performs more
iterations than this. -/
def HIGHLIGHT_LOOP_FUEL : ℕ := RELATED_NEIGHBOR_CAP + 1

/-- State threaded through one neighbor-list pass of the related-nodes
collection; `eta` is the id type of the visited set and queue (strings for
the full-graph walk, indices for the adjacency walk). -/
structure CollectStep (eta : Type) where
  rn : Finset ℕ
  re : Finset (ℕ × ℕ)
  visited : Finset eta
  pushed : List (eta × ℕ)
  stopped : Bool

/-- One neighbor-list pass of `collect_related_paths_by_id`: record the
source/target render indices and edge, stop once the node cap is reached,
and queue ids not yet visited. -/
def collect_neighbors_by_id (index_by_id : List (String × ℕ)) (forward : Bool)
    (node_id : String) (depth : ℕ) :
    List String → Finset ℕ → Finset (ℕ × ℕ) → Finset String → List (String × ℕ) →
    CollectStep String
  | [], rn, re, visited, pushed => ⟨rn, re, visited, pushed, false⟩
  | next :: rest, rn, re, visited, pushed =>
    let source_id := if forward then node_id else next
    let target_id := if forward then next else node_id
    let source_index := index_by_id.lookup source_id
    let target_index := index_by_id.lookup target_id
    let rn1 := match source_index with
      | some s => insert s rn
      | none => rn
    let rn2 := match target_index with
      | some t => insert t rn1
      | none => rn1
    let re1 := match source_index, target_index with
      | some s, some t => insert (s, t) re
      | _, _ => re
    if RELATED_NODE_LIMIT ≤ rn2.card then ⟨rn2, re1, visited, pushed, true⟩
    else if next ∈ visited then
      collect_neighbors_by_id index_by_id forward node_id depth rest rn2 re1 visited pushed
    else
      collect_neighbors_by_id index_by_id forward node_id depth rest rn2 re1
        (insert next visited) (pushed ++ [(next, depth + 1)])

/-- Work loop of `collect_related_paths_by_id`: pop a queue entry, skip it
at the depth limit, otherwise process the first `RELATED_NEIGHBOR_CAP` of
its neighbor list. -/
def collect_loop_by_id (g : SystemGraph) (forward : Bool)
    (index_by_id : List (String × ℕ)) :
    ℕ → List (String × ℕ) → Finset String → Finset ℕ → Finset (ℕ × ℕ) →
    Finset ℕ × Finset (ℕ × ℕ)
  | 0, _, _, rn, re => (rn, re)
  | _ + 1, [], _, rn, re => (rn, re)
  | fuel + 1, item :: rest, visited, rn, re =>
    if RELATED_DEPTH ≤ item.2 then collect_loop_by_id g forward index_by_id fuel rest visited rn re
    else
      match g.nodes.lookup item.1 with
      | none => collect_loop_by_id g forward index_by_id fuel rest visited rn re
      | some node =>
        let neighbors := (if forward then node.references else node.referrers).take RELATED_NEIGHBOR_CAP
        let r := collect_neighbors_by_id index_by_id forward item.1 item.2 neighbors rn re visited []
        if r.stopped then (r.rn, r.re)
        else collect_loop_by_id g forward index_by_id fuel (rest ++ r.pushed) r.visited r.rn r.re

/-- Related-path collection over the full graph, modelling
`collect_related_paths_by_id` (the source mutates the two sets; the model
returns them). -/
def collect_related_paths_by_id (g : SystemGraph) (selected_id : String)
    (forward : Bool) (index_by_id : List (String × ℕ))
    (related_nodes : Finset ℕ) (related_edges : Finset (ℕ × ℕ)) :
    Finset ℕ × Finset (ℕ × ℕ) :=
  collect_loop_by_id g forward index_by_id HIGHLIGHT_LOOP_FUEL
    [(selected_id, 0)] {selected_id} related_nodes related_edges

/-- One neighbor-list pass of the adjacency-based `collect_related_paths`. -/
def collect_neighbors_adj (forward : Bool) (node : ℕ) (depth : ℕ) :
    List ℕ → Finset ℕ → Finset (ℕ × ℕ) → Finset ℕ → List (ℕ × ℕ) → CollectStep ℕ
  | [], rn, re, visited, pushed => ⟨rn, re, visited, pushed, false⟩
  | next :: rest, rn, re, visited, pushed =>
    let edge := if forward then (node, next) else (next, node)
    let re1 := insert edge re
    let inserted := next ∉ rn
    let rn1 := insert next rn
    if inserted ∧ RELATED_NODE_LIMIT ≤ rn1.card then ⟨rn1, re1, visited, pushed, true⟩
    else if next ∈ visited then
      collect_neighbors_adj forward node depth rest rn1 re1 visited pushed
    else
      collect_neighbors_adj forward node depth rest rn1 re1
        (insert next visited) (pushed ++ [(next, depth + 1)])

/-- Work loop of the adjacency-based `collect_related_paths`. -/
def collect_loop_adj (adjacency : List (List ℕ)) (forward : Bool) :
    ℕ → List (ℕ × ℕ) → Finset ℕ → Finset ℕ → Finset (ℕ × ℕ) →
    Finset ℕ × Finset (ℕ × ℕ)
  | 0, _, _, rn, re => (rn, re)
  | _ + 1, [], _, rn, re => (rn, re)
  | fuel + 1, item :: rest, visited, rn, re =>
    if RELATED_DEPTH ≤ item.2 then collect_loop_adj adjacency forward fuel rest visited rn re
    else
      let neighbors := (adjacency.getD item.1 []).take RELATED_NEIGHBOR_CAP
      let r := collect_neighbors_adj forward item.1 item.2 neighbors rn re visited []
      if r.stopped then (r.rn, r.re)
      else collect_loop_adj adjacency forward fuel (rest ++ r.pushed) r.visited r.rn r.re

/-- Related-path collection over the filtered adjacency lists, modelling
`collect_related_paths`. -/
def collect_related_paths (adjacency : List (List ℕ)) (selected_index : ℕ)
    (forward : Bool) (related_nodes : Finset ℕ) (related_edges : Finset (ℕ × ℕ)) :
    Finset ℕ × Finset (ℕ × ℕ) :=
  collect_loop_adj adjacency forward HIGHLIGHT_LOOP_FUEL
    [(selected_index, 0)] {selected_index} related_nodes related_edges

/-- The `usize::MAX` sentinel of the parent array in `shortest_root_path`. -/
def USIZE_MAX : ℕ := 2 ^ 64 - 1

/-- BFS work loop of `shortest_root_path` over the filtered adjacency lists.
The iteration count is bounded by the initial queue length plus the node
count, which is the fuel passed below. -/
def shortest_root_path_loop (outgoing : List (List ℕ)) (target : ℕ) :
    ℕ → List ℕ → List Bool → List ℕ → List Bool × List ℕ
  | 0, _, visited, parent => (visited, parent)
  | _ + 1, [], visited, parent => (visited, parent)
  | fuel + 1, node :: rest, visited, parent =>
    if node = target then (visited, parent)
    else
      let st := (outgoing.getD node []).foldl
        (fun acc next =>
          if acc.1.getD next false = false then
            (acc.1.set next true, acc.2.1.set next node, acc.2.2 ++ [next])
          else acc)
        (visited, parent, ([] : List ℕ))
      shortest_root_path_loop outgoing target fuel (rest ++ st.2.2) st.1 st.2.1

/-- Parent-chain walk of `shortest_root_path`, collecting overlay nodes and
edges; the chain consumes distinct parent entries, so fuel one past the
node count suffices on BFS output. -/
def root_path_walk (parent : List ℕ) (root_index : ℕ) :
    ℕ → ℕ → Finset ℕ → Finset (ℕ × ℕ) → Finset ℕ × Finset (ℕ × ℕ)
  | 0, _, pn, pe => (pn, pe)
  | fuel + 1, cursor, pn, pe =>
    if cursor = root_index then (pn, pe)
    else
      let prev := parent.getD cursor USIZE_MAX
      if prev = USIZE_MAX then (pn, pe)
      else root_path_walk parent root_index fuel prev (insert prev pn) (insert (prev, cursor) pe)

/-- Root-path overlay computation over the filtered graph, modelling
`shortest_root_path` in highlight/paths.rs. -/
def shortest_root_path (cache : RenderGraph) (root_index target_index : ℕ) :
    Finset ℕ × Finset (ℕ × ℕ) :=
  let n := cache.nodes.length
  if n ≤ root_index ∨ n ≤ target_index then (∅, ∅)
  else if root_index = target_index then ({root_index}, ∅)
  else
    let visited0 := (List.replicate n false).set root_index true
    let parent0 := List.replicate n USIZE_MAX
    let r := shortest_root_path_loop cache.outgoing target_index (n + 1) [root_index] visited0 parent0
    if r.1.getD target_index false = false then (∅, ∅)
    else root_path_walk r.2 root_index (n + 1) target_index {target_index} ∅

/-- Per-selection overlay sets (`HighlightState`). -/
structure HighlightState where
  related_nodes : Finset ℕ
  related_edges : Finset (ℕ × ℕ)
  root_path_nodes : Finset ℕ
  root_path_edges : Finset (ℕ × ℕ)

/-- Highlight construction from a selected render index, modelling
`build_highlight_state`. -/
def build_highlight_state (cache : RenderGraph) (selected_index : ℕ) : HighlightState :=
  let rn0 : Finset ℕ := {selected_index}
  let r1 := collect_related_paths cache.outgoing selected_index true rn0 ∅
  let r2 := collect_related_paths cache.incoming selected_index false r1.1 r1.2
  let rp := match cache.root_index with
    | some root_index => shortest_root_path cache root_index selected_index
    | none => (∅, ∅)
  { related_nodes := r2.1, related_edges := r2.2,
    root_path_nodes := rp.1, root_path_edges := rp.2 }

/-- Highlight construction from a selected id over the full graph,
modelling `build_highlight_state_for_selected_id`. -/
def build_highlight_state_for_selected_id (g : SystemGraph) (cache : RenderGraph)
    (selected_id : String) : Option HighlightState :=
  if (g.nodes.lookup selected_id).isSome = false then none
  else
    let r1 := collect_related_paths_by_id g selected_id true cache.index_by_id ∅ ∅
    let r2 := collect_related_paths_by_id g selected_id false cache.index_by_id r1.1 r1.2
    let rp := match g.shortest_path_from_root selected_id with
      | some path =>
        let pn := path.foldl
          (fun acc id =>
            match cache.index_by_id.lookup id with
            | some i => insert i acc
            | none => acc)
          (∅ : Finset ℕ)
        let pe := (path.zip path.tail).foldl
          (fun acc (pr : String × String) =>
            match cache.index_by_id.lookup pr.1, cache.index_by_id.lookup pr.2 with
            | some s, some t => insert (s, t) acc
            | _, _ => acc)
          (∅ : Finset (ℕ × ℕ))
        (pn, pe)
      | none => (∅, ∅)
    some { related_nodes := r2.1, related_edges := r2.2,
           root_path_nodes := rp.1, root_path_edges := rp.2 }

/-! ## Mean state helpers and concrete instances used by witnesses -/

/-- Mean of the velocities of a node list (the quantity the drift
cancellation divides by the node count). -/
def meanVelNodes (l : List RenderNode) : VecQ :=
  vdiv (l.map RenderNode.velocity).sum (l.length : ℚ)

/-- Mean of the positions of a node list. -/
def meanPosNodes (l : List RenderNode) : VecQ :=
  vdiv (l.map RenderNode.world_pos).sum (l.length : ℚ)

/-- Mean velocity across a render graph's nodes. -/
def meanVelocity (g : RenderGraph) : VecQ := meanVelNodes g.nodes

/-- Centroid of a render graph's node positions. -/
def meanPosition (g : RenderGraph) : VecQ := meanPosNodes g.nodes

/-- A concrete interpretation of the abstract float library functions, used
to instantiate universally quantified statements at concrete inputs. -/
def trivialOps : TransOps :=
  { fsqrt := fun _ => 1, fpow := fun _ _ => 1, fln := fun _ => 1,
    fcos := fun _ => 1, fsin := fun _ => 1, tau := 1, hash64 := fun _ => 0 }

/-- A concrete physics configuration for instantiating statements. -/
def cfg0 : PhysicsConfig :=
  { intensity := 1, repulsion_scale := 1, spring_scale := 1, collision_scale := 1,
    velocity_damping := 0.9, target_spread := 1, spread_force := 0, delta_seconds := 1/60 }

/-- A concrete one-node render graph. -/
def graph1 : RenderGraph :=
  { nodes := [dummyNode], edges := [], index_by_id := [("", 0)], outgoing := [[]],
    incoming := [[]], root_index := some 0, min_metric := 1, max_metric := 1 }

/-- A concrete two-node render graph. -/
def graph2 : RenderGraph :=
  { nodes := [dummyNode, { dummyNode with id := "b" }], edges := [(0, 1)],
    index_by_id := [("", 0), ("b", 1)], outgoing := [[1], []],
    incoming := [[], [0]], root_index := some 0, min_metric := 1, max_metric := 1 }

/-! ## Lemmas for the drift-cancellation claim -/

theorem list_sum_map_sub_vec (l : List RenderNode) (f : RenderNode → VecQ) (c : VecQ) :
    (l.map (fun nd => f nd - c)).sum = (l.map f).sum - l.length • c := by
  induction l with
  | nil => simp
  | cons a t ih =>
    simp only [List.map_cons, List.sum_cons, ih, List.length_cons]
    rw [succ_nsmul]
    abel

theorem sub_smul_vdiv_self (s : VecQ) (n : ℕ) (hn : n ≠ 0) :
    s - n • vdiv s (n : ℚ) = 0 := by
  have hq : (n : ℚ) ≠ 0 := Nat.cast_ne_zero.mpr hn
  have h1 : (n : ℚ) * (s.1 / (n : ℚ)) = s.1 := mul_div_cancel₀ s.1 hq
  have h2 : (n : ℚ) * (s.2 / (n : ℚ)) = s.2 := mul_div_cancel₀ s.2 hq
  have : n • vdiv s (n : ℚ) = s := by
    ext
    · simpa [vdiv, nsmul_eq_mul] using h1
    · simpa [vdiv, nsmul_eq_mul] using h2
  rw [this, sub_self]

theorem drift_correct_velocity_mean (l : List RenderNode) (hl : l.length ≠ 0) :
    lensq (meanVelNodes (drift_correct l (l.length : ℚ))) ≤ 0.000001 := by
  unfold drift_correct
  by_cases hc : (0.000001 : ℚ) < lensq (vdiv (l.map RenderNode.velocity).sum (l.length : ℚ))
  · rw [if_pos hc]
    have hmap : ((l.map (fun n => { n with
        velocity := n.velocity - vdiv (l.map RenderNode.velocity).sum (l.length : ℚ) })).map
          RenderNode.velocity) =
        l.map (fun nd => nd.velocity - vdiv (l.map RenderNode.velocity).sum (l.length : ℚ)) := by
      simp [List.map_map]
    unfold meanVelNodes
    rw [hmap, list_sum_map_sub_vec, List.length_map,
      sub_smul_vdiv_self _ _ hl]
    norm_num [vdiv, lensq]
  · rw [if_neg hc]
    exact le_of_not_lt hc

theorem drift_correct_length (l : List RenderNode) (n : ℚ) :
    (drift_correct l n).length = l.length := by
  unfold drift_correct
  by_cases hc : (0.000001 : ℚ) < lensq (vdiv (l.map RenderNode.velocity).sum n)
  · rw [if_pos hc]; simp
  · rw [if_neg hc]

theorem recenter_correct_length (l : List RenderNode) (n : ℚ) :
    (recenter_correct l n).length = l.length := by
  unfold recenter_correct
  by_cases hc : (0.000001 : ℚ) < lensq (vdiv (l.map RenderNode.world_pos).sum n)
  · rw [if_pos hc]; simp
  · rw [if_neg hc]

theorem recenter_correct_velocities (l : List RenderNode) (n : ℚ) :
    (recenter_correct l n).map RenderNode.velocity = l.map RenderNode.velocity := by
  unfold recenter_correct
  by_cases hc : (0.000001 : ℚ) < lensq (vdiv (l.map RenderNode.world_pos).sum n)
  · rw [if_pos hc]
    simp [List.map_map]
  · rw [if_neg hc]

theorem recenter_correct_position_mean (l : List RenderNode) (hl : l.length ≠ 0) :
    lensq (meanPosNodes (recenter_correct l (l.length : ℚ))) ≤ 0.000001 := by
  unfold recenter_correct
  by_cases hc : (0.000001 : ℚ) < lensq (vdiv (l.map RenderNode.world_pos).sum (l.length : ℚ))
  · rw [if_pos hc]
    have hmap : ((l.map (fun n => { n with
        world_pos := n.world_pos - vdiv (l.map RenderNode.world_pos).sum (l.length : ℚ) })).map
          RenderNode.world_pos) =
        l.map (fun nd => nd.world_pos - vdiv (l.map RenderNode.world_pos).sum (l.length : ℚ)) := by
      simp [List.map_map]
    unfold meanPosNodes
    rw [hmap, list_sum_map_sub_vec, List.length_map,
      sub_smul_vdiv_self _ _ hl]
    norm_num [vdiv, lensq]
  · rw [if_neg hc]
    exact le_of_not_lt hc

set_option maxHeartbeats 1000000 in
theorem step_physics_shape (R : TransOps) (cfg : PhysicsConfig) (cache : RenderGraph)
    (h : ¬ cache.nodes.length < 2) :
    ∃ X : List RenderNode, X.length = cache.nodes.length ∧
      (step_physics R cache cfg).2 =
        { cache with
            nodes := recenter_correct (drift_correct X (cache.nodes.length : ℚ))
              (cache.nodes.length : ℚ) } := by
  simp only [step_physics, if_neg h]
  exact ⟨_, by simp, rfl⟩

/-- C10: calling `step_physics` on a `RenderGraph` containing fewer than 2
nodes returns false and leaves the graph completely unchanged: every node's
`world_pos` and `velocity` and all other `RenderGraph` fields keep their
prior values. -/
theorem claim_C10_small_graph_noop (R : TransOps) (cfg : PhysicsConfig)
    (cache : RenderGraph) (h : cache.nodes.length < 2) :
    step_physics R cache cfg = (false, cache) := by
  simp only [step_physics, if_pos h]

/-- Witness for C10 at a concrete one-node graph. -/
theorem claim_C10_witness :
    List.length graph1.nodes < 2 ∧
    step_physics trivialOps graph1 cfg0 = (false, graph1) :=
  ⟨by decide, claim_C10_small_graph_noop trivialOps cfg0 graph1 (by decide)⟩

/-- C8: after any single integration step of `step_physics` on a graph with
at least 2 nodes, the mean velocity across all nodes and the centroid of all
node positions are numerically zero: both have squared length at most the
motion epsilon `0.000001` that the source itself uses (they are exactly zero
whenever the pre-correction average exceeded that epsilon). -/
theorem claim_C8_drift_cancellation (R : TransOps) (cfg : PhysicsConfig)
    (cache : RenderGraph) (h2 : 2 ≤ cache.nodes.length) :
    lensq (meanVelocity (step_physics R cache cfg).2) ≤ 0.000001 ∧
    lensq (meanPosition (step_physics R cache cfg).2) ≤ 0.000001 := by
  obtain ⟨X, hX, hEq⟩ := step_physics_shape R cfg cache (not_lt.mpr h2)
  rw [hEq, ← hX]
  have hX0 : X.length ≠ 0 := by omega
  constructor
  · have h1 : meanVelNodes (recenter_correct (drift_correct X (X.length : ℚ)) (X.length : ℚ)) =
        meanVelNodes (drift_correct X (X.length : ℚ)) := by
      unfold meanVelNodes
      rw [recenter_correct_velocities, recenter_correct_length]
    show lensq (meanVelNodes (recenter_correct (drift_correct X (X.length : ℚ)) (X.length : ℚ))) ≤ _
    rw [h1]
    exact drift_correct_velocity_mean X hX0
  · show lensq (meanPosNodes (recenter_correct (drift_correct X (X.length : ℚ)) (X.length : ℚ))) ≤ _
    have hdl : (drift_correct X (X.length : ℚ)).length = X.length :=
      drift_correct_length X (X.length : ℚ)
    have hgoal := recenter_correct_position_mean (drift_correct X (X.length : ℚ))
      (by rw [hdl]; exact hX0)
    rw [hdl] at hgoal
    exact hgoal

/-- Witness for C8 at a concrete two-node graph. -/
theorem claim_C8_witness :
    2 ≤ List.length graph2.nodes ∧
    (lensq (meanVelocity (step_physics trivialOps graph2 cfg0).2) ≤ 0.000001 ∧
     lensq (meanPosition (step_physics trivialOps graph2 cfg0).2) ≤ 0.000001) :=
  ⟨by decide, claim_C8_drift_cancellation trivialOps cfg0 graph2 (by decide)⟩

/-! ## Quadtree structural lemmas -/

theorem quadrantOf_lt_four {β : Type} (K : CoordOps β) (b : QuadBounds) (p : β × β) :
    quadrantOf K b p < 4 := by
  unfold quadrantOf
  cases K.quadrantTest p.1 b.center.1 <;> cases K.quadrantTest p.2 b.center.2 <;> simp

theorem multiset_filter_quadrants (idx : List ℕ) (f : ℕ → ℕ) (hf : ∀ i, f i < 4) :
    ((idx.filter (fun i => f i = 0) : List ℕ) : Multiset ℕ) +
      (idx.filter (fun i => f i = 1) : List ℕ) +
      (idx.filter (fun i => f i = 2) : List ℕ) +
      (idx.filter (fun i => f i = 3) : List ℕ) = (idx : Multiset ℕ) := by
  ext b
  have hb := hf b
  simp only [← Multiset.filter_coe, Multiset.count_add, Multiset.count_filter]
  interval_cases hbf : f b <;> simp [hbf]

theorem buildNode_mass {β : Type} (K : CoordOps β) (fuel : ℕ) (b : QuadBounds)
    (idx : List ℕ) (ps : List (β × β)) :
    (buildNode K fuel b idx ps).mass = (idx.length : ℚ) := by
  cases fuel with
  | zero => simp [buildNode, QuadTree.mass]
  | succ f =>
    simp only [buildNode]
    split
    · simp [QuadTree.mass]
    · split
      · simp [QuadTree.mass]
      · simp [QuadTree.mass]

theorem filterMap_buckets_map_sum {β γ : Type} [AddCommMonoid γ]
    (l : List (ℕ × List ℕ)) (g : ℕ × List ℕ → QuadTree β) (F : QuadTree β → γ) :
    ((l.filterMap (fun b => if b.2 = [] then none else some (g b))).map F).sum =
      (l.map (fun b => if b.2 = [] then 0 else F (g b))).sum := by
  induction l with
  | nil => simp
  | cons x t ih =>
    by_cases hx : x.2 = []
    · simp [List.filterMap_cons, hx, ih]
    · simp [List.filterMap_cons, hx, ih]

theorem buildNode_indicesAll {β : Type} (K : CoordOps β) :
    ∀ (fuel : ℕ) (b : QuadBounds) (idx : List ℕ) (ps : List (β × β)),
      (buildNode K fuel b idx ps).indicesAll (fuel + 1) = (idx : Multiset ℕ) := by
  intro fuel
  induction fuel with
  | zero =>
    intro b idx ps
    simp [buildNode, QuadTree.indicesAll]
  | succ f ih =>
    intro b idx ps
    simp only [buildNode]
    split
    · simp [QuadTree.indicesAll]
    · split
      · simp [QuadTree.indicesAll]
      · simp only [QuadTree.indicesAll]
        rw [filterMap_buckets_map_sum]
        have hterm : ∀ (q : ℕ) (Fq : List ℕ),
            (if Fq = [] then (0 : Multiset ℕ)
             else (buildNode K f (b.child q) Fq ps).indicesAll (f + 1)) = (Fq : Multiset ℕ) := by
          intro q Fq
          by_cases h : Fq = []
          · simp [h]
          · simp [h, ih]
        have h4 := multiset_filter_quadrants idx
          (fun i => quadrantOf K b (ps.getD i (K.zeroC, K.zeroC)))
          (fun i => quadrantOf_lt_four K b (ps.getD i (K.zeroC, K.zeroC)))
        simp only [List.map_cons, List.map_nil, List.sum_cons, List.sum_nil, hterm]
        rw [← h4]
        simp

/-- The mass invariant of the spec: a leaf's mass is its point count and an
internal node's mass is the sum of its children's masses, recursively. -/
inductive MassOK {β : Type} : QuadTree β → Prop where
  | leaf (bounds : QuadBounds) (com : β × β) (indices : List ℕ) :
      MassOK (.mk bounds com (indices.length : ℚ) indices [])
  | internal (bounds : QuadBounds) (com : β × β) (mass : ℚ) (indices : List ℕ)
      (children : List (QuadTree β)) (hne : children ≠ [])
      (hmass : mass = (children.map QuadTree.mass).sum)
      (hch : ∀ c ∈ children, MassOK c) :
      MassOK (.mk bounds com mass indices children)

theorem buildNode_massOK {β : Type} (K : CoordOps β) :
    ∀ (fuel : ℕ) (b : QuadBounds) (idx : List ℕ) (ps : List (β × β)),
      MassOK (buildNode K fuel b idx ps) := by
  intro fuel
  induction fuel with
  | zero =>
    intro b idx ps
    simp only [buildNode]
    exact MassOK.leaf _ _ _
  | succ f ih =>
    intro b idx ps
    simp only [buildNode]
    split
    · exact MassOK.leaf _ _ _
    · split
      · exact MassOK.leaf _ _ _
      · next hguard =>
        refine MassOK.internal _ _ _ _ _ ?_ ?_ ?_
        · intro hnil
          rw [List.filterMap_eq_nil_iff] at hnil
          have hall : ∀ b0 ∈ ([0, 1, 2, 3].map (fun q =>
              (q, idx.filter (fun i =>
                quadrantOf K b (ps.getD i (K.zeroC, K.zeroC)) = q)))), b0.2 = [] := by
            intro b0 hb0
            have := hnil b0 hb0
            by_contra hcon
            simp [hcon] at this
          apply hguard
          have : ([0, 1, 2, 3].map (fun q =>
              (q, idx.filter (fun i =>
                quadrantOf K b (ps.getD i (K.zeroC, K.zeroC)) = q)))).filter
                (fun b0 => ¬ b0.2 = []) = [] := by
            rw [List.filter_eq_nil_iff]
            intro b0 hb0
            simp [hall b0 hb0]
          rw [this]
          simp
        · rw [filterMap_buckets_map_sum]
          have hterm : ∀ (q : ℕ) (Fq : List ℕ),
              (if Fq = [] then (0 : ℚ)
               else (buildNode K f (b.child q) Fq ps).mass) = (Fq.length : ℚ) := by
            intro q Fq
            by_cases h : Fq = []
            · simp [h]
            · simp [h, buildNode_mass]
          simp only [List.map_cons, List.map_nil, List.sum_cons, List.sum_nil, hterm]
          have h4 := congrArg Multiset.card (multiset_filter_quadrants idx
            (fun i => quadrantOf K b (ps.getD i (K.zeroC, K.zeroC)))
            (fun i => quadrantOf_lt_four K b (ps.getD i (K.zeroC, K.zeroC))))
          simp only [Multiset.card_add, Multiset.coe_card] at h4
          push_cast [← h4]
          ring
        · intro c hc
          rw [List.mem_filterMap] at hc
          obtain ⟨b0, _, hb0⟩ := hc
          by_cases hB : b0.2 = []
          · simp [hB] at hb0
          · simp only [hB, if_false, Option.some.injEq] at hb0
            rw [← hb0]
            exact ih _ _ _

/-- C4: in every quadtree produced by `QuadNode::build`, every internal
node's mass equals the sum of its children's masses, and every leaf node's
mass equals the number of points it contains. -/
theorem claim_C4_mass_conservation (ps : List (EFloat × EFloat)) :
    (QuadTree.buildE ps).elim True MassOK := by
  unfold QuadTree.buildE
  cases hfp : QuadBounds.fromPointsE ps with
  | none => simp
  | some b =>
    simpa using buildNode_massOK efloatCoordOps QUADTREE_MAX_DEPTH b (List.range ps.length) ps

/-! ## Lemmas about the f32 bounding-box fold (claim C2) -/

theorem ite_fin_isFinite (c : Prop) [Decidable c] (a b : ℚ) :
    (if c then EFloat.fin a else EFloat.fin b).isFinite = true := by
  split <;> rfl

theorem ite_fin_ne_ninf (c : Prop) [Decidable c] (a b : ℚ) :
    (if c then EFloat.fin a else EFloat.fin b) ≠ EFloat.ninf := by
  split <;> simp

theorem ite_fin_ne_inf (c : Prop) [Decidable c] (a b : ℚ) :
    (if c then EFloat.fin a else EFloat.fin b) ≠ EFloat.inf := by
  split <;> simp

theorem isFinite_nan : EFloat.isFinite .nan = false := rfl

theorem isFinite_inf : EFloat.isFinite .inf = false := rfl

theorem isFinite_ninf : EFloat.isFinite .ninf = false := rfl

theorem isFinite_fin (q : ℚ) : EFloat.isFinite (.fin q) = true := rfl

theorem rmin_isFinite (x y : EFloat) :
    ((x.rmin y).isFinite = true) ↔
      ((x.isFinite = true ∨ y.isFinite = true) ∧ x ≠ .ninf ∧ y ≠ .ninf) := by
  cases x <;> cases y <;>
    simp [EFloat.rmin, EFloat.le, ite_fin_isFinite, isFinite_nan, isFinite_inf,
      isFinite_ninf, isFinite_fin]

theorem rmin_ne_ninf (x y : EFloat) :
    (x.rmin y ≠ .ninf) ↔ (x ≠ .ninf ∧ y ≠ .ninf) := by
  cases x <;> cases y <;>
    simp [EFloat.rmin, EFloat.le, ite_fin_ne_ninf]

theorem rmax_isFinite (x y : EFloat) :
    ((x.rmax y).isFinite = true) ↔
      ((x.isFinite = true ∨ y.isFinite = true) ∧ x ≠ .inf ∧ y ≠ .inf) := by
  cases x <;> cases y <;>
    simp [EFloat.rmax, EFloat.le, ite_fin_isFinite, isFinite_nan, isFinite_inf,
      isFinite_ninf, isFinite_fin]

theorem rmax_ne_inf (x y : EFloat) :
    (x.rmax y ≠ .inf) ↔ (x ≠ .inf ∧ y ≠ .inf) := by
  cases x <;> cases y <;>
    simp [EFloat.rmax, EFloat.le, ite_fin_ne_inf]

theorem foldl_rmin_isFinite (xs : List EFloat) : ∀ acc : EFloat,
    ((xs.foldl EFloat.rmin acc).isFinite = true) ↔
      ((acc.isFinite = true ∨ ∃ x ∈ xs, x.isFinite = true) ∧
        acc ≠ .ninf ∧ ∀ x ∈ xs, x ≠ EFloat.ninf) := by
  induction xs with
  | nil =>
    intro acc
    cases acc <;> simp [isFinite_nan, isFinite_inf, isFinite_ninf, isFinite_fin]
  | cons x t ih =>
    intro acc
    rw [List.foldl_cons, ih, rmin_isFinite, rmin_ne_ninf]
    simp only [List.mem_cons, forall_eq_or_imp, exists_eq_or_imp]
    tauto

theorem foldl_rmax_isFinite (xs : List EFloat) : ∀ acc : EFloat,
    ((xs.foldl EFloat.rmax acc).isFinite = true) ↔
      ((acc.isFinite = true ∨ ∃ x ∈ xs, x.isFinite = true) ∧
        acc ≠ .inf ∧ ∀ x ∈ xs, x ≠ EFloat.inf) := by
  induction xs with
  | nil =>
    intro acc
    cases acc <;> simp [isFinite_nan, isFinite_inf, isFinite_ninf, isFinite_fin]
  | cons x t ih =>
    intro acc
    rw [List.foldl_cons, ih, rmax_isFinite, rmax_ne_inf]
    simp only [List.mem_cons, forall_eq_or_imp, exists_eq_or_imp]
    tauto

/-- The exact condition under which the bounding-box construction succeeds:
each axis has at least one finite coordinate and no coordinate is infinite
(NaN coordinates are allowed, because Rust min/max ignore them). -/
def boundsComputable (ps : List (EFloat × EFloat)) : Prop :=
  (∃ p ∈ ps, p.1.isFinite = true) ∧ (∃ p ∈ ps, p.2.isFinite = true) ∧
    (∀ p ∈ ps, p.1 ≠ EFloat.ninf) ∧ (∀ p ∈ ps, p.1 ≠ EFloat.inf) ∧
    (∀ p ∈ ps, p.2 ≠ EFloat.ninf) ∧ (∀ p ∈ ps, p.2 ≠ EFloat.inf)

theorem fromPointsE_eq_none_iff (ps : List (EFloat × EFloat)) :
    (QuadBounds.fromPointsE ps = none) ↔ ¬ boundsComputable ps := by
  have h1 : ps.foldl (fun acc p => EFloat.rmin acc p.1) EFloat.inf =
      (ps.map Prod.fst).foldl EFloat.rmin EFloat.inf := (List.foldl_map _ _ _ _).symm
  have h2 : ps.foldl (fun acc p => EFloat.rmin acc p.2) EFloat.inf =
      (ps.map Prod.snd).foldl EFloat.rmin EFloat.inf := (List.foldl_map _ _ _ _).symm
  have h3 : ps.foldl (fun acc p => EFloat.rmax acc p.1) EFloat.ninf =
      (ps.map Prod.fst).foldl EFloat.rmax EFloat.ninf := (List.foldl_map _ _ _ _).symm
  have h4 : ps.foldl (fun acc p => EFloat.rmax acc p.2) EFloat.ninf =
      (ps.map Prod.snd).foldl EFloat.rmax EFloat.ninf := (List.foldl_map _ _ _ _).symm
  have hchar :
      ((((ps.map Prod.fst).foldl EFloat.rmin EFloat.inf).isFinite &&
        (((ps.map Prod.snd).foldl EFloat.rmin EFloat.inf).isFinite &&
        (((ps.map Prod.fst).foldl EFloat.rmax EFloat.ninf).isFinite &&
        ((ps.map Prod.snd).foldl EFloat.rmax EFloat.ninf).isFinite))) = true) ↔
        boundsComputable ps := by
    simp [Bool.and_eq_true, foldl_rmin_isFinite, foldl_rmax_isFinite, boundsComputable,
      isFinite_inf, isFinite_ninf]
    tauto
  unfold QuadBounds.fromPointsE
  simp only [h1, h2, h3, h4]
  by_cases h : boundsComputable ps
  · rw [if_pos (by
      have := hchar.mpr h
      simpa [Bool.and_assoc] using this)]
    simp [h]
  · rw [if_neg (by
      intro hcon
      exact h (hchar.mp (by simpa [Bool.and_assoc] using hcon)))]
    simp [h]

theorem buildE_eq_none_iff (ps : List (EFloat × EFloat)) :
    (QuadTree.buildE ps = none) ↔ ¬ boundsComputable ps := by
  unfold QuadTree.buildE
  rw [Option.map_eq_none']
  exact fromPointsE_eq_none_iff ps

/-- The two-point list whose first point has a NaN x-coordinate masked by
the second, finite point. -/
def nanMaskPoints : List (EFloat × EFloat) :=
  [(EFloat.nan, EFloat.fin 0), (EFloat.fin 1, EFloat.fin 2)]

/-- C2 counterexample: `nanMaskPoints` contains a non-finite coordinate
(`NaN`), yet `QuadNode::build` does not return `None` on it, because Rust's
`f32::min`/`f32::max` ignore a NaN operand whenever the other operand is a
number, so the bounding-box finiteness check never sees the NaN. -/
theorem claim_C2_counterexample :
    (∃ p ∈ nanMaskPoints, p.1.isFinite = false) ∧ QuadTree.buildE nanMaskPoints ≠ none := by
  constructor
  · exact ⟨(EFloat.nan, EFloat.fin 0), by simp [nanMaskPoints], rfl⟩
  · rw [Ne, buildE_eq_none_iff, not_not]
    refine ⟨⟨(EFloat.fin 1, EFloat.fin 2), by simp [nanMaskPoints], rfl⟩,
      ⟨(EFloat.nan, EFloat.fin 0), by simp [nanMaskPoints], rfl⟩, ?_, ?_, ?_, ?_⟩ <;>
      (intro p hp
       rcases (by simpa [nanMaskPoints] using hp :
         p = (EFloat.nan, EFloat.fin 0) ∨ p = (EFloat.fin 1, EFloat.fin 2)) with rfl | rfl <;>
         simp)

/-- C2 (amended): `Build(positions)` returns `None` exactly when no point
has a finite x-coordinate, or no point has a finite y-coordinate (both hold
in particular for the empty list), or some coordinate is plus or minus
infinity; a NaN coordinate alone does not force `None` when another point
supplies a finite value on that axis.  Otherwise it returns a quadtree
containing exactly the indices of all the points, NaN-positioned points
included. -/
theorem claim_C2_amended (ps : List (EFloat × EFloat)) :
    ((QuadTree.buildE ps = none) ↔ ¬ boundsComputable ps) ∧
    (QuadTree.buildE ps).elim True
      (fun t => t.indicesAll (QUADTREE_MAX_DEPTH + 1) =
        ((List.range ps.length : List ℕ) : Multiset ℕ)) := by
  refine ⟨buildE_eq_none_iff ps, ?_⟩
  unfold QuadTree.buildE
  cases hfp : QuadBounds.fromPointsE ps with
  | none => simp
  | some b =>
    simpa using buildNode_indicesAll efloatCoordOps QUADTREE_MAX_DEPTH b
      (List.range ps.length) ps

/-! ## Barnes-Hut exactness at theta = 0 (claim C9) -/

/-- Modelled from the spec's words, as the comparison side of the
refinement claim: brute-force pairwise summation of the per-pair repulsion
term over all other points. -/
def bruteForceRepulsion (R : TransOps) (ps : List VecQ) (index : ℕ) (rs soft : ℚ) : VecQ :=
  (List.range ps.length).foldl
    (fun acc j =>
      if j = index then acc
      else acc + repulsion_between R (ps.getD index 0) (ps.getD j 0) rs soft)
    0

theorem foldl_add_map_sum {α M : Type} [AddCommMonoid M] (l : List α) (h : α → M) :
    ∀ init : M, l.foldl (fun acc x => acc + h x) init = init + (l.map h).sum := by
  induction l with
  | nil => intro init; simp
  | cons x t ih => intro init; simp [ih, add_assoc]

theorem foldl_skip_eq {M : Type} [AddCommMonoid M] (l : List ℕ) (index : ℕ) (g : ℕ → M) :
    ∀ init : M,
      l.foldl (fun acc j => if j = index then acc else acc + g j) init =
        init + (l.map (fun j => if j = index then 0 else g j)).sum := by
  induction l with
  | nil => intro init; simp
  | cons j t ih =>
    intro init
    by_cases hj : j = index
    · simp [hj, ih]
    · simp [hj, ih, add_assoc]

theorem filterMap_ne_nil_of_two_buckets (l : List (ℕ × List ℕ)) {β : Type}
    (g : ℕ × List ℕ → QuadTree β)
    (h : ¬ (l.filter (fun b => ¬ b.2 = [])).length ≤ 1) :
    l.filterMap (fun b => if b.2 = [] then none else some (g b)) ≠ [] := by
  intro hnil
  rw [List.filterMap_eq_nil_iff] at hnil
  apply h
  have hfil : l.filter (fun b => ¬ b.2 = []) = [] := by
    rw [List.filter_eq_nil_iff]
    intro b hb
    have := hnil b hb
    by_contra hc
    simp only [decide_eq_true_eq] at hc
    simp [hc] at this
  rw [hfil]
  simp

theorem repAccum_leaf (R : TransOps) (ps : List VecQ) (index : ℕ) (rs soft theta : ℚ)
    (fuel : ℕ) (b : QuadBounds) (com : ℚ × ℚ) (idx : List ℕ) :
    accumulate_repulsion R (fuel + 1) (QuadTree.mk b com (idx.length : ℚ) idx []) index ps
        rs soft theta =
      ((idx : Multiset ℕ).map (fun j => if j = index then 0
        else repulsion_between R (ps.getD index 0) (ps.getD j 0) rs soft)).sum := by
  by_cases hnil : idx = []
  · subst hnil
    simp [accumulate_repulsion, QuadTree.mass]
  · have hlen : (0 : ℚ) < (idx.length : ℚ) := by
      exact_mod_cast List.length_pos.mpr hnil
    simp only [accumulate_repulsion, QuadTree.mass, QuadTree.isLeaf, QuadTree.children,
      QuadTree.indices, List.isEmpty_nil, if_neg (not_le.mpr hlen)]
    rw [if_pos trivial, foldl_skip_eq]
    simp

theorem child_halfExtent (b : QuadBounds) (q : ℕ) :
    (b.child q).halfExtent = b.halfExtent * (1/2) := by
  unfold QuadBounds.child
  cases q with
  | zero => rfl
  | succ n => cases n with
    | zero => rfl
    | succ m => cases m with
      | zero => rfl
      | succ k => rfl

theorem repAccum_internal (R : TransOps) (hsq : ∀ x : ℚ, 0 < x → 0 < R.fsqrt x)
    (ps : List VecQ) (index : ℕ) (rs soft : ℚ) (fuel : ℕ) (b : QuadBounds)
    (hhe : 0 < b.halfExtent) (com : ℚ × ℚ) (mass : ℚ) (children : List (QuadTree ℚ))
    (hmass : 0 < mass) (hne : children ≠ []) :
    accumulate_repulsion R (fuel + 1) (QuadTree.mk b com mass [] children) index ps rs soft 0 =
      (children.map (fun c => accumulate_repulsion R fuel c index ps rs soft 0)).sum := by
  have hempty : children.isEmpty = false := by
    rw [List.isEmpty_eq_false]
    exact hne
  have hd : 0 < R.fsqrt (max (lensq (ps.getD index 0 - com)) (1/10000)) :=
    hsq _ (lt_of_lt_of_le (by norm_num) (le_max_right _ _))
  have hside : 0 < b.sideLength := by
    unfold QuadBounds.sideLength
    linarith
  have hnot : ¬ (b.sideLength / R.fsqrt (max (lensq (ps.getD index 0 - com)) (1/10000)) < 0) :=
    not_lt.mpr (div_pos hside hd).le
  simp only [accumulate_repulsion, QuadTree.mass, QuadTree.isLeaf, QuadTree.children,
    QuadTree.bounds, QuadTree.com, if_neg (not_le.mpr hmass), hempty,
    Bool.false_eq_true, if_false, decide_eq_false hnot, Bool.and_false, Bool.false_and]
  rw [foldl_add_map_sum]
  simp

set_option maxHeartbeats 1000000 in
theorem repAccum_buildNode (R : TransOps) (hsq : ∀ x : ℚ, 0 < x → 0 < R.fsqrt x)
    (ps : List VecQ) (index : ℕ) (rs soft : ℚ) :
    ∀ (fuel : ℕ) (b : QuadBounds) (idx : List ℕ), 0 < b.halfExtent →
      accumulate_repulsion R (fuel + 1) (buildNode ratCoordOps fuel b idx ps) index ps rs soft 0 =
        ((idx : Multiset ℕ).map (fun j => if j = index then 0
          else repulsion_between R (ps.getD index 0) (ps.getD j 0) rs soft)).sum := by
  intro fuel
  induction fuel with
  | zero =>
    intro b idx hhe
    simp only [buildNode]
    exact repAccum_leaf R ps index rs soft 0 0 b _ idx
  | succ f ih =>
    intro b idx hhe
    simp only [buildNode]
    split
    · exact repAccum_leaf R ps index rs soft 0 _ b _ idx
    · next hcap =>
      split
      · exact repAccum_leaf R ps index rs soft 0 _ b _ idx
      · next hguard =>
        have hlen : (0 : ℚ) < (idx.length : ℚ) := by
          have h0 : 0 < idx.length := by omega
          exact_mod_cast h0
        rw [repAccum_internal R hsq ps index rs soft (f + 1) b hhe _ _ _ hlen
          (filterMap_ne_nil_of_two_buckets _
            (fun bkt => buildNode ratCoordOps f (b.child bkt.1) bkt.2 ps) hguard)]
        rw [filterMap_buckets_map_sum]
        have hterm : ∀ (q : ℕ) (Fq : List ℕ),
            (if Fq = [] then (0 : VecQ)
             else accumulate_repulsion R (f + 1) (buildNode ratCoordOps f (b.child q) Fq ps)
               index ps rs soft 0) =
            ((Fq : Multiset ℕ).map (fun j => if j = index then 0
              else repulsion_between R (ps.getD index 0) (ps.getD j 0) rs soft)).sum := by
          intro q Fq
          by_cases h : Fq = []
          · simp [h]
          · rw [if_neg h, ih (b.child q) Fq]
            rw [child_halfExtent]
            linarith
        have h4 := multiset_filter_quadrants idx
          (fun i => quadrantOf ratCoordOps b (ps.getD i (ratCoordOps.zeroC, ratCoordOps.zeroC)))
          (fun i => quadrantOf_lt_four ratCoordOps b (ps.getD i (ratCoordOps.zeroC, ratCoordOps.zeroC)))
        simp only [List.map_cons, List.map_nil, List.sum_cons, List.sum_nil, hterm]
        rw [← h4]
        simp [Multiset.map_add, Multiset.sum_add]

theorem fromPointsQ_halfExtent_pos (ps : List VecQ) (b : QuadBounds)
    (h : QuadBounds.fromPointsQ ps = some b) : 0 < b.halfExtent := by
  unfold QuadBounds.fromPointsQ at h
  cases ps with
  | nil => cases h
  | cons p rest =>
    simp only [Option.some.injEq] at h
    rw [← h]
    have h1 : (1 : ℚ) ≤ max ((rest.foldl (fun acc q => max acc q.1) p.1) -
        (rest.foldl (fun acc q => min acc q.1) p.1)) 1 := le_max_right _ _
    have h2 : (1 : ℚ) ≤ max (max ((rest.foldl (fun acc q => max acc q.1) p.1) -
        (rest.foldl (fun acc q => min acc q.1) p.1)) 1)
        (max ((rest.foldl (fun acc q => max acc q.2) p.2) -
        (rest.foldl (fun acc q => min acc q.2) p.2)) 1) := le_trans h1 (le_max_left _ _)
    show (0 : ℚ) < _ * (1/2) + 1
    linarith

/-- C9: for any set of points, the Barnes-Hut repulsion traversal with
theta equal to 0 (which forces exact recursion to the leaves) produces, for
every query point, exactly the same total repulsion force vector as
brute-force pairwise summation of the per-pair repulsion term over all
other points.  In the exact-rational model, equality within floating-point
tolerance becomes exact equality; the only assumption on the abstract
square root is that it is positive on positive inputs, which real `f32`
square root satisfies. -/
theorem claim_C9_theta_zero_equals_bruteforce (R : TransOps)
    (hsq : ∀ x : ℚ, 0 < x → 0 < R.fsqrt x) (ps : List VecQ) (index : ℕ) (rs soft : ℚ) :
    (QuadTree.buildQ ps).elim True (fun t =>
      accumulate_repulsion R (QUADTREE_MAX_DEPTH + 1) t index ps rs soft 0 =
        bruteForceRepulsion R ps index rs soft) := by
  unfold QuadTree.buildQ
  cases hfp : QuadBounds.fromPointsQ ps with
  | none => simp
  | some b =>
    have hhe := fromPointsQ_halfExtent_pos ps b hfp
    have hmain := repAccum_buildNode R hsq ps index rs soft QUADTREE_MAX_DEPTH b
      (List.range ps.length) hhe
    simp only [Option.map_some', Option.elim_some]
    rw [hmain]
    unfold bruteForceRepulsion
    rw [foldl_skip_eq]
    simp

/-- Witness for C9 at a concrete two-point configuration and a concrete
positive interpretation of the square root. -/
theorem claim_C9_witness :
    (QuadTree.buildQ [((0 : ℚ), (0 : ℚ)), ((5 : ℚ), (0 : ℚ))]).elim True (fun t =>
      accumulate_repulsion trivialOps (QUADTREE_MAX_DEPTH + 1) t 0
          [((0 : ℚ), (0 : ℚ)), ((5 : ℚ), (0 : ℚ))] 78000 620 0 =
        bruteForceRepulsion trivialOps [((0 : ℚ), (0 : ℚ)), ((5 : ℚ), (0 : ℚ))] 0 78000 620) :=
  claim_C9_theta_zero_equals_bruteforce trivialOps
    (fun x hx => by norm_num [trivialOps]) _ 0 78000 620

/-! ## Edge list and adjacency lemmas (claim C5) -/

theorem pairLe_total : ∀ a b : ℕ × ℕ, pairLe a b ∨ pairLe b a := by
  intro a b
  unfold pairLe
  omega

theorem pairLe_trans : ∀ a b c : ℕ × ℕ, pairLe a b → pairLe b c → pairLe a c := by
  intro a b c
  unfold pairLe
  omega

theorem pairLe_antisymm : ∀ a b : ℕ × ℕ, pairLe a b → pairLe b a → a = b := by
  intro a b h1 h2
  unfold pairLe at h1 h2
  have hh : a.1 = b.1 ∧ a.2 = b.2 := by omega
  exact Prod.ext hh.1 hh.2

theorem dedupConsec_sublist {α : Type} [DecidableEq α] :
    ∀ l : List α, List.Sublist (dedupConsec l) l
  | [] => by simp [dedupConsec]
  | [a] => by simp [dedupConsec]
  | a :: b :: t => by
    unfold dedupConsec
    by_cases h : a = b
    · rw [if_pos h]
      exact (dedupConsec_sublist (b :: t)).cons a
    · rw [if_neg h]
      exact (dedupConsec_sublist (b :: t)).cons₂ a

theorem dedupConsec_cons_eq {α : Type} [DecidableEq α] :
    ∀ (b : α) (t : List α), ∃ t' : List α, dedupConsec (b :: t) = b :: t'
  | _, [] => ⟨[], rfl⟩
  | b, c :: t => by
    unfold dedupConsec
    by_cases h : b = c
    · rw [if_pos h]
      obtain ⟨t', ht⟩ := dedupConsec_cons_eq c t
      exact ⟨t', by rw [ht, h]⟩
    · rw [if_neg h]
      exact ⟨dedupConsec (c :: t), rfl⟩

theorem dedupConsec_chain {α : Type} [DecidableEq α] :
    ∀ l : List α, (dedupConsec l).Chain' (· ≠ ·)
  | [] => by simp [dedupConsec]
  | [a] => by simp [dedupConsec]
  | a :: b :: t => by
    unfold dedupConsec
    by_cases h : a = b
    · rw [if_pos h]
      exact dedupConsec_chain (b :: t)
    · rw [if_neg h]
      obtain ⟨t', ht⟩ := dedupConsec_cons_eq b t
      rw [ht]
      exact List.chain'_cons.mpr ⟨h, ht ▸ dedupConsec_chain (b :: t)⟩

theorem nodup_of_sorted_chain :
    ∀ l : List (ℕ × ℕ), l.Sorted pairLe → l.Chain' (· ≠ ·) → l.Nodup := by
  intro l
  induction l with
  | nil => simp
  | cons a t ih =>
    intro hs hc
    rw [List.nodup_cons]
    refine ⟨?_, ih hs.of_cons hc.tail⟩
    intro hmem
    cases t with
    | nil => simp at hmem
    | cons b t2 =>
      have hab : a ≠ b := (List.chain'_cons.mp hc).1
      have h1 : pairLe a b := List.rel_of_sorted_cons hs b (by simp)
      rcases (by simpa using hmem : a = b ∨ a ∈ t2) with rfl | hin
      · exact hab rfl
      · have h2 : pairLe b a := List.rel_of_sorted_cons hs.of_cons a hin
        exact hab (pairLe_antisymm a b h1 h2)

theorem dedup_sorted_nodup (raw : List (ℕ × ℕ)) :
    (dedupConsec (List.insertionSort pairLe raw)).Nodup := by
  haveI : IsTotal (ℕ × ℕ) pairLe := ⟨pairLe_total⟩
  haveI : IsTrans (ℕ × ℕ) pairLe := ⟨pairLe_trans⟩
  apply nodup_of_sorted_chain
  · exact List.Pairwise.sublist (dedupConsec_sublist _) (List.sorted_insertionSort pairLe raw)
  · exact dedupConsec_chain _

theorem lookup_mem {α β : Type} [BEq α] [LawfulBEq α] {l : List (α × β)} {k : α} {b : β}
    (h : l.lookup k = some b) : (k, b) ∈ l := by
  rw [List.lookup_eq_some_iff] at h
  obtain ⟨l1, l2, rfl, h2⟩ := h
  simp

theorem index_by_id_lt (ids : List String) (target : String) (ti : ℕ)
    (h : (ids.enum.map (fun p => (p.2, p.1))).lookup target = some ti) : ti < ids.length := by
  have hmem := lookup_mem h
  rw [List.mem_map] at hmem
  obtain ⟨q, hq, heq⟩ := hmem
  have hti : q.1 = ti := congrArg Prod.snd heq
  rw [← hti]
  have : (q.1, q.2) ∈ ids.enum := by simpa using hq
  rw [List.mk_mem_enum_iff_getElem?] at this
  exact (List.getElem?_eq_some_iff.mp this).1

theorem raw_edges_prop (vm : ViewModel) (ids : List String) :
    ∀ (l : List (ℕ × String)) (acc : List (ℕ × ℕ)),
      (∀ e ∈ acc, e.1 ≠ e.2 ∧ e.1 < ids.length ∧ e.2 < ids.length) →
      (∀ p ∈ l, p.1 < ids.length) →
      ∀ e ∈ l.foldl
        (fun acc p =>
          match vm.graph.nodes.lookup p.2 with
          | none => acc
          | some node =>
            acc ++ node.references.filterMap
              (fun target_id =>
                match (ids.enum.map (fun p => (p.2, p.1))).lookup target_id with
                | some target_index =>
                  if p.1 ≠ target_index then some (p.1, target_index) else none
                | none => none))
        acc,
        e.1 ≠ e.2 ∧ e.1 < ids.length ∧ e.2 < ids.length := by
  intro l
  induction l with
  | nil =>
    intro acc hacc _
    simpa using hacc
  | cons p rest ih =>
    intro acc hacc hl
    rw [List.foldl_cons]
    cases hnd : vm.graph.nodes.lookup p.2 with
    | none =>
      exact ih acc hacc (fun q hq => hl q (by simp [hq]))
    | some node =>
      refine ih _ ?_ (fun q hq => hl q (by simp [hq]))
      intro e he
      rw [List.mem_append] at he
      rcases he with he | he
      · exact hacc e he
      · rw [List.mem_filterMap] at he
        obtain ⟨target, _, hf⟩ := he
        cases hlk : (ids.enum.map (fun p => (p.2, p.1))).lookup target with
        | none => rw [hlk] at hf; cases hf
        | some ti =>
          rw [hlk] at hf
          dsimp only at hf
          by_cases hne : p.1 ≠ ti
          · rw [if_pos hne] at hf
            cases hf
            exact ⟨hne, hl p (by simp), index_by_id_lt ids target ti hlk⟩
          · rw [if_neg hne] at hf
            cases hf

theorem collect_edges_props (vm : ViewModel) (ids : List String) :
    ∀ e ∈ collect_edges vm ids (ids.enum.map (fun p => (p.2, p.1))),
      e.1 ≠ e.2 ∧ e.1 < ids.length ∧ e.2 < ids.length := by
  intro e he
  unfold collect_edges at he
  have h1 : e ∈ List.insertionSort pairLe _ :=
    (dedupConsec_sublist _).mem he
  rw [List.mem_insertionSort] at h1
  refine raw_edges_prop vm ids ids.enum [] (by simp) ?_ e h1
  intro p hp
  obtain ⟨i, x⟩ := p
  rw [List.mk_mem_enum_iff_getElem?] at hp
  exact (List.getElem?_eq_some_iff.mp hp).1

theorem collect_edges_nodup (vm : ViewModel) (ids : List String)
    (index_by_id : List (String × ℕ)) : (collect_edges vm ids index_by_id).Nodup := by
  unfold collect_edges
  exact dedup_sorted_nodup _

theorem adjacency_out_count (n : ℕ) :
    ∀ (es : List (ℕ × ℕ)) (og ic : List (List ℕ)) (a b : ℕ),
      (∀ e ∈ es, e.1 < n ∧ e.2 < n) → og.length = n →
      (((es.foldl
          (fun acc e =>
            if e.1 < n ∧ e.2 < n then
              (acc.1.set e.1 (acc.1.getD e.1 [] ++ [e.2]),
               acc.2.set e.2 (acc.2.getD e.2 [] ++ [e.1]))
            else acc)
          (og, ic)).1.getD a []).count b) =
        ((og.getD a []).count b) + es.count (a, b) := by
  intro es
  induction es with
  | nil => intro og ic a b _ _; simp
  | cons e rest ih =>
    intro og ic a b hb hlen
    rw [List.foldl_cons, if_pos (hb e (by simp))]
    rw [ih _ _ a b (fun x hx => hb x (by simp [hx])) (by simp [hlen])]
    rw [List.count_cons]
    by_cases hae : e.1 = a
    · have hlt : a < og.length := by rw [hlen]; rw [← hae]; exact (hb e (by simp)).1
      have hgd : (og.set e.1 (og.getD e.1 [] ++ [e.2])).getD a [] =
          og.getD a [] ++ [e.2] := by
        rw [hae]
        simp [List.getD_eq_getElem?_getD, List.getElem?_set_self hlt,
          List.getElem?_eq_getElem hlt]
      rw [hgd, List.count_append]
      have heq : (e = (a, b)) ↔ (e.2 = b) := by
        constructor
        · intro h; rw [h]
        · intro h
          have : e = (e.1, e.2) := rfl
          rw [this, hae, h]
      by_cases hbe : e.2 = b
      · simp [hbe, heq.mpr hbe]
        omega
      · have : ¬ (e = (a, b)) := fun hcon => hbe (heq.mp hcon)
        simp [List.count_singleton, hbe, this]
    · have hgd : (og.set e.1 (og.getD e.1 [] ++ [e.2])).getD a [] = og.getD a [] := by
        simp [List.getD_eq_getElem?_getD, List.getElem?_set_ne hae]
      have : ¬ (e = (a, b)) := by
        intro hcon
        exact hae (congrArg Prod.fst hcon)
      rw [hgd]
      simp [this]

theorem adjacency_in_count (n : ℕ) :
    ∀ (es : List (ℕ × ℕ)) (og ic : List (List ℕ)) (a b : ℕ),
      (∀ e ∈ es, e.1 < n ∧ e.2 < n) → ic.length = n →
      (((es.foldl
          (fun acc e =>
            if e.1 < n ∧ e.2 < n then
              (acc.1.set e.1 (acc.1.getD e.1 [] ++ [e.2]),
               acc.2.set e.2 (acc.2.getD e.2 [] ++ [e.1]))
            else acc)
          (og, ic)).2.getD b []).count a) =
        ((ic.getD b []).count a) + es.count (a, b) := by
  intro es
  induction es with
  | nil => intro og ic a b _ _; simp
  | cons e rest ih =>
    intro og ic a b hb hlen
    rw [List.foldl_cons, if_pos (hb e (by simp))]
    rw [ih _ _ a b (fun x hx => hb x (by simp [hx])) (by simp [hlen])]
    rw [List.count_cons]
    by_cases hbe : e.2 = b
    · have hlt : b < ic.length := by rw [hlen]; rw [← hbe]; exact (hb e (by simp)).2
      have hgd : (ic.set e.2 (ic.getD e.2 [] ++ [e.1])).getD b [] =
          ic.getD b [] ++ [e.1] := by
        rw [hbe]
        simp [List.getD_eq_getElem?_getD, List.getElem?_set_self hlt,
          List.getElem?_eq_getElem hlt]
      rw [hgd, List.count_append]
      have heq : (e = (a, b)) ↔ (e.1 = a) := by
        constructor
        · intro h; rw [h]
        · intro h
          have : e = (e.1, e.2) := rfl
          rw [this, hbe, h]
      by_cases hae : e.1 = a
      · simp [hae, heq.mpr hae]
        omega
      · have : ¬ (e = (a, b)) := fun hcon => hae (heq.mp hcon)
        simp [List.count_singleton, hae, this]
    · have hgd : (ic.set e.2 (ic.getD e.2 [] ++ [e.1])).getD b [] = ic.getD b [] := by
        simp [List.getD_eq_getElem?_getD, List.getElem?_set_ne hbe]
      have : ¬ (e = (a, b)) := by
        intro hcon
        exact hbe (congrArg Prod.snd hcon)
      rw [hgd]
      simp [this]

theorem getD_replicate_nil (n a : ℕ) :
    ((List.replicate n ([] : List ℕ)).getD a []) = [] := by
  simp [List.getD_eq_getElem?_getD, List.getElem?_replicate]
  split <;> simp

theorem beq_prod_eq (y x : ℕ × ℕ) :
    (@BEq.beq (ℕ × ℕ) instBEqProd y x) = decide (y = x) := by
  obtain ⟨a, b⟩ := y
  obtain ⟨c, d⟩ := x
  show (a == c && b == d) = decide ((a, b) = (c, d))
  by_cases h1 : a = c
  · by_cases h2 : b = d
    · subst h1; subst h2; simp
    · simp [h1, h2]
  · simp [h1]

theorem count_inst_eq (l : List (ℕ × ℕ)) (x : ℕ × ℕ) :
    @List.count (ℕ × ℕ) instBEqProd x l = @List.count (ℕ × ℕ) instBEqOfDecidableEq x l := by
  induction l with
  | nil => rfl
  | cons y ys ih =>
    rw [@List.count_cons (ℕ × ℕ) instBEqProd, @List.count_cons (ℕ × ℕ) instBEqOfDecidableEq,
      ih, beq_prod_eq]
    rfl

theorem build_adjacency_counts (n : ℕ) (es : List (ℕ × ℕ)) (hnd : es.Nodup)
    (hb : ∀ e ∈ es, e.1 < n ∧ e.2 < n) :
    ∀ e ∈ es, (((build_adjacency n es).1.getD e.1 []).count e.2 = 1) ∧
      (((build_adjacency n es).2.getD e.2 []).count e.1 = 1) := by
  intro e he
  unfold build_adjacency
  constructor
  · rw [adjacency_out_count n es _ _ e.1 e.2 hb (by simp)]
    rw [getD_replicate_nil]
    simp
    rw [count_inst_eq]
    exact List.count_eq_one_of_mem hnd (by simpa using he)
  · rw [adjacency_in_count n es _ _ e.1 e.2 hb (by simp)]
    rw [getD_replicate_nil]
    simp
    rw [count_inst_eq]
    exact List.count_eq_one_of_mem hnd (by simpa using he)

theorem carry_nodes_length (R : TransOps) (ri : Option ℕ) :
    ∀ (rows : List (ℕ × String × ℕ × ℚ)) (prior : List (String × RenderNode)),
      (carry_nodes R ri rows prior).length = rows.length := by
  intro rows
  induction rows with
  | nil => intro prior; rfl
  | cons row rest ih =>
    intro prior
    unfold carry_nodes
    cases prior.lookup row.2.1 with
    | some node => simp [ih]
    | none => simp [ih]

set_option maxHeartbeats 2000000 in
theorem rebuild_cache_fields (R : TransOps) (vm : ViewModel) :
    ((rebuild_render_graph R vm).graph_cache).elim True
      (fun c => c.edges = collect_edges vm (filtered_node_ids vm)
          ((filtered_node_ids vm).enum.map (fun p => (p.2, p.1))) ∧
        c.outgoing = (build_adjacency c.nodes.length c.edges).1 ∧
        c.incoming = (build_adjacency c.nodes.length c.edges).2 ∧
        c.nodes.length = (filtered_node_ids vm).length) := by
  by_cases h : filtered_node_ids vm = []
  · simp [rebuild_render_graph, h]
  · simp only [rebuild_render_graph, if_neg h, Option.elim]
    refine ⟨trivial, trivial, trivial, ?_⟩
    cases hgc : vm.graph_cache with
    | some cache =>
      simp [carry_nodes_length]
    | none =>
      simp

/-- C5: after any render graph rebuild that produces a cache, every edge
`(a, b)` of the edge list has `a ≠ b`, `b` appears exactly once in
`outgoing[a]`, and `a` appears exactly once in `incoming[b]`. -/
theorem claim_C5_edge_adjacency_invariant (R : TransOps) (vm : ViewModel) :
    ((rebuild_render_graph R vm).graph_cache).elim True
      (fun c => List.Forall
        (fun e => e.1 ≠ e.2 ∧ ((c.outgoing.getD e.1 []).count e.2 = 1) ∧
          ((c.incoming.getD e.2 []).count e.1 = 1)) c.edges) := by
  have key := rebuild_cache_fields R vm
  cases hc : (rebuild_render_graph R vm).graph_cache with
  | none => simp
  | some c =>
    rw [hc] at key
    simp only [Option.elim] at key ⊢
    obtain ⟨hedges, hout, hin, hlen⟩ := key
    rw [List.forall_iff_forall_mem]
    intro e he
    have hprops := collect_edges_props vm (filtered_node_ids vm)
    have hnd : c.edges.Nodup := by
      rw [hedges]; exact collect_edges_nodup vm (filtered_node_ids vm) _
    have hb : ∀ x ∈ c.edges, x.1 < c.nodes.length ∧ x.2 < c.nodes.length := by
      intro x hx
      rw [hedges] at hx
      have hx2 := hprops x hx
      rw [hlen]
      exact ⟨hx2.2.1, hx2.2.2⟩
    have hcounts := build_adjacency_counts c.nodes.length c.edges hnd hb e he
    refine ⟨?_, ?_, ?_⟩
    · have := hprops e (by rw [← hedges]; exact he)
      exact this.1
    · rw [hout]; exact hcounts.1
    · rw [hin]; exact hcounts.2

/-! ## C3: initial state of freshly created render nodes -/

/-- Concrete operation table for the C3 scenario: the hasher sends every id
to 0, whose stable pair is the corner (-1, -1); square roots are read as 1
so the normalized direction stays (-1, -1). -/
def R3 : TransOps :=
  { fsqrt := fun _ => 1, fpow := fun _ _ => 1, fln := fun _ => 1,
    fcos := fun _ => 1, fsin := fun _ => 1, tau := 0, hash64 := fun _ => 0 }

/-- A single dependency-graph node for the C3 scenario. -/
def nodeR : NodeRecord :=
  { id := "r", full_path := "/nix/store/r", nar_size := 5, closure_size := 5,
    references := [], referrers := [], deriver := none }

/-- Dependency graph of the C3 scenario: one node, root id absent. -/
def graph3 : SystemGraph :=
  { store_dir := "/nix/store", root_id := "root", nodes := [("r", nodeR)],
    edge_count := 0 }

/-- A previous render graph holding no nodes, so every rebuilt node is
genuinely new. -/
def emptyRG : RenderGraph :=
  { nodes := [], edges := [], index_by_id := [], outgoing := [], incoming := [],
    root_index := none, min_metric := 1, max_metric := 1 }

/-- View state of the C3 scenario: a previous render graph is present. -/
def vm3 : ViewModel :=
  { graph := graph3, metric := SizeMetric.narSize, min_size_mb := 0,
    max_nodes := 2, selected := none, graph_dirty := true,
    render_graph_revision := 0, graph_cache := some emptyRG,
    visible_node_count := 0, visible_edge_count := 0 }

theorem assoc_put_mem {β : Type} :
    ∀ (m : List (String × β)) (k : String) (v : β) (p : String × β),
      p ∈ assoc_put m k v → p ∈ m ∨ p = (k, v) := by
  intro m
  induction m with
  | nil => intro k v p hp; simp [assoc_put] at hp; right; exact hp
  | cons q t ih =>
    intro k v p hp
    unfold assoc_put at hp
    by_cases h : q.1 = k
    · rw [if_pos h] at hp
      rcases List.mem_cons.mp hp with h1 | h1
      · right; rw [h1, h]
      · left; exact List.mem_cons_of_mem _ h1
    · rw [if_neg h] at hp
      rcases List.mem_cons.mp hp with h1 | h1
      · left; rw [h1]; exact List.mem_cons_self _ _
      · rcases ih k v p h1 with h2 | h2
        · left; exact List.mem_cons_of_mem _ h2
        · right; exact h2

theorem foldl_assoc_put_mem (ns : List RenderNode) :
    ∀ (m : List (String × RenderNode)) (p : String × RenderNode),
      p ∈ ns.foldl (fun m n => assoc_put m n.id n) m →
      p ∈ m ∨ ∃ n0 ∈ ns, p = (n0.id, n0) := by
  induction ns with
  | nil => intro m p hp; left; simpa using hp
  | cons n rest ih =>
    intro m p hp
    rw [List.foldl_cons] at hp
    rcases ih _ p hp with h1 | h1
    · rcases assoc_put_mem m n.id n p h1 with h2 | h2
      · left; exact h2
      · right; exact ⟨n, by simp, h2⟩
    · obtain ⟨n0, hn0, hpe⟩ := h1
      right; exact ⟨n0, by simp [hn0], hpe⟩

theorem assoc_erase_sublist {β : Type} :
    ∀ (l : List (String × β)) (k : String), List.Sublist (assoc_erase l k) l := by
  intro l
  induction l with
  | nil => intro k; simp [assoc_erase]
  | cons q t ih =>
    intro k
    unfold assoc_erase
    by_cases h : q.1 = k
    · rw [if_pos h]
      exact List.sublist_cons_of_sublist q (List.Sublist.refl t)
    · rw [if_neg h]
      exact List.Sublist.cons₂ q (ih k)

theorem carry_nodes_mem (R : TransOps) (ri : Option ℕ) :
    ∀ (rows : List (ℕ × String × ℕ × ℚ)) (prior : List (String × RenderNode))
      (n : RenderNode), n ∈ carry_nodes R ri rows prior →
      (∃ p ∈ prior, n.id = p.2.id) ∨
      ∃ row ∈ rows,
        n = make_render_node R row.2.1 row.1 row.2.2.1 row.2.2.2
          (decide (ri = some row.1)) := by
  intro rows
  induction rows with
  | nil => intro prior n hn; simp [carry_nodes] at hn
  | cons row rest ih =>
    intro prior n hn
    unfold carry_nodes at hn
    cases hlk : prior.lookup row.2.1 with
    | some node =>
      rw [hlk] at hn
      rcases List.mem_cons.mp hn with h1 | h1
      · left
        refine ⟨(row.2.1, node), lookup_mem hlk, ?_⟩
        rw [h1]
      · rcases ih _ n h1 with ⟨p, hp, hpid⟩ | ⟨r2, hr2, hne⟩
        · left; exact ⟨p, (assoc_erase_sublist prior row.2.1).mem hp, hpid⟩
        · right; exact ⟨r2, by simp [hr2], hne⟩
    | none =>
      rw [hlk] at hn
      rcases List.mem_cons.mp hn with h1 | h1
      · right; exact ⟨row, by simp, h1⟩
      · rcases ih _ n h1 with ⟨p, hp, hpid⟩ | ⟨r2, hr2, hne⟩
        · left; exact ⟨p, hp, hpid⟩
        · right; exact ⟨r2, by simp [hr2], hne⟩

set_option maxHeartbeats 2000000 in
theorem rebuild_nodes_shape (R : TransOps) (vm : ViewModel) (cache : RenderGraph)
    (hgc : vm.graph_cache = some cache) :
    ((rebuild_render_graph R vm).graph_cache).elim True (fun c =>
      ∃ rows, c.nodes = carry_nodes R c.root_index rows
        (cache.nodes.foldl (fun m n => assoc_put m n.id n) [])) := by
  by_cases h : filtered_node_ids vm = []
  · simp [rebuild_render_graph, h]
  · simp only [rebuild_render_graph, if_neg h, Option.elim, hgc]
    exact ⟨_, rfl⟩

/-- C3 (amended): during a rebuild with a previous render graph present,
every node whose id is not among the previous graph's node ids is created
by `make_render_node`: its world position is the origin (not hash-derived),
and the hash-derived stable unit direction (with the golden-angle fallback)
instead enters its initial velocity, scaled by the radius-dependent speed
(zero for the root). -/
theorem claim_C3_amended (R : TransOps) (vm : ViewModel) :
    (vm.graph_cache).elim True (fun cache =>
      ((rebuild_render_graph R vm).graph_cache).elim True (fun c =>
        List.Forall (fun n =>
          n.id ∉ cache.nodes.map RenderNode.id →
            n.world_pos = ((0 : ℚ), (0 : ℚ)) ∧
            ∃ i m r,
              n = make_render_node R n.id i m r (decide (c.root_index = some i)) ∧
              n.velocity = vscale
                (if decide (c.root_index = some i) then 0 else 1.15 + r * 0.022)
                (initial_direction R n.id i))
          c.nodes)) := by
  cases hgc : vm.graph_cache with
  | none => simp
  | some cache =>
    simp only [Option.elim]
    have hsh := rebuild_nodes_shape R vm cache hgc
    cases hcc : (rebuild_render_graph R vm).graph_cache with
    | none => simp
    | some c =>
      rw [hcc] at hsh
      simp only [Option.elim] at hsh ⊢
      obtain ⟨rows, hnodes⟩ := hsh
      rw [List.forall_iff_forall_mem]
      intro n hn hid
      rw [hnodes] at hn
      rcases carry_nodes_mem R c.root_index rows _ n hn with ⟨p, hp, hpid⟩ | ⟨row, _, hne⟩
      · exfalso
        rcases foldl_assoc_put_mem cache.nodes [] p hp with h0 | ⟨n0, hn0, hpe⟩
        · simp at h0
        · apply hid
          rw [hpid, hpe]
          exact List.mem_map_of_mem RenderNode.id hn0
      · constructor
        · rw [hne]; rfl
        · refine ⟨row.1, row.2.2.1, row.2.2.2, ?_, ?_⟩
          · rw [hne]; rfl
          · rw [hne]; rfl

theorem vm3_filtered_ids : filtered_node_ids vm3 = ["r"] := by
  norm_num [filtered_node_ids, vm3, graph3, nodeR, NodeRecord.metric,
    pick_ranked, List.insertionSort, List.orderedInsert, Nat.min_def, Nat.max_def]
  decide

/-- C3 counterexample: rebuilding with a previous (empty) render graph
present, the genuinely new node "r" ends at world position (0, 0), even
though the hash-derived stable unit vector of its id is (-1, -1); the fresh
world position is therefore not the hashed direction, which only seeds the
velocity. -/
theorem claim_C3_counterexample :
    vm3.graph_cache = some emptyRG ∧ emptyRG.nodes = [] ∧
    ((rebuild_render_graph R3 vm3).graph_cache).map
        (fun c => (c.nodes.map RenderNode.id, c.nodes.map RenderNode.world_pos)) =
      some (["r"], [((0 : ℚ), (0 : ℚ))]) ∧
    initial_direction R3 "r" 0 = ((-1 : ℚ), (-1 : ℚ)) ∧
    ((0 : ℚ), (0 : ℚ)) ≠ ((-1 : ℚ), (-1 : ℚ)) := by
  refine ⟨rfl, rfl, ?_, ?_, ?_⟩
  · simp only [rebuild_render_graph, vm3_filtered_ids]
    simp [vm3, emptyRG, graph3, nodeR, carry_nodes, make_render_node,
      NodeRecord.metric, Nat.min_def, Nat.max_def]
  · norm_num [initial_direction, stable_pair, lensq, vdiv, R3]
  · norm_num [Prod.ext_iff]

/-! ## C7: filter relaxation preserves carried node state -/

theorem pick_ranked_acc_mem (x : String) :
    ∀ (l : List (ℕ × String)) (t : ℕ) (ids : List String),
      x ∈ ids → x ∈ pick_ranked t l ids := by
  intro l
  induction l with
  | nil => intro t ids hx; simpa [pick_ranked] using hx
  | cons r rest ih =>
    intro t ids hx
    unfold pick_ranked
    by_cases h1 : t ≤ ids.length
    · rw [if_pos h1]; exact hx
    · rw [if_neg h1]
      by_cases h2 : r.2 ∈ ids
      · rw [if_pos h2]; exact ih t ids hx
      · rw [if_neg h2]; exact ih t _ (List.mem_append_left _ hx)

theorem pick_ranked_mono_mem (t t' : ℕ) (ht : t ≤ t') (x : String) :
    ∀ (l : List (ℕ × String)) (ids : List String),
      x ∈ pick_ranked t l ids → x ∈ pick_ranked t' l ids := by
  intro l
  induction l with
  | nil => intro ids hx; simpa [pick_ranked] using hx
  | cons r rest ih =>
    intro ids hx
    unfold pick_ranked at hx ⊢
    by_cases h1 : t ≤ ids.length
    · rw [if_pos h1] at hx
      by_cases h1' : t' ≤ ids.length
      · rw [if_pos h1']; exact hx
      · rw [if_neg h1']
        by_cases h2 : r.2 ∈ ids
        · rw [if_pos h2]; exact pick_ranked_acc_mem x rest t' ids hx
        · rw [if_neg h2]
          exact pick_ranked_acc_mem x rest t' _ (List.mem_append_left _ hx)
    · rw [if_neg h1] at hx
      have h1' : ¬ t' ≤ ids.length := fun hc => h1 (ht.trans hc)
      rw [if_neg h1']
      by_cases h2 : r.2 ∈ ids
      · rw [if_pos h2] at hx; rw [if_pos h2]; exact ih ids hx
      · rw [if_neg h2] at hx; rw [if_neg h2]; exact ih _ hx

theorem pick_ranked_nodup :
    ∀ (l : List (ℕ × String)) (t : ℕ) (ids : List String),
      ids.Nodup → (pick_ranked t l ids).Nodup := by
  intro l
  induction l with
  | nil => intro t ids h; simpa [pick_ranked] using h
  | cons r rest ih =>
    intro t ids h
    unfold pick_ranked
    by_cases h1 : t ≤ ids.length
    · rw [if_pos h1]; exact h
    · rw [if_neg h1]
      by_cases h2 : r.2 ∈ ids
      · rw [if_pos h2]; exact ih t ids h
      · rw [if_neg h2]
        refine ih t _ (List.Nodup.append h (List.nodup_singleton _) ?_)
        intro a ha hb
        rw [List.mem_singleton] at hb
        subst hb
        exact h2 ha

theorem filtered_node_ids_nodup (vm : ViewModel) : (filtered_node_ids vm).Nodup := by
  simp only [filtered_node_ids]
  apply pick_ranked_nodup
  split
  · generalize hb0 :
      (if (List.lookup vm.graph.root_id vm.graph.nodes).isSome = true
        then [vm.graph.root_id] else []) = b0
    have hb : b0.Nodup := by rw [← hb0]; split <;> simp
    split
    · rename_i h
      refine List.Nodup.append hb (List.nodup_singleton _) ?_
      intro a ha hb2
      rw [List.mem_singleton] at hb2
      subst hb2
      exact h.2 ha
    · exact hb
  · split <;> simp

theorem filtered_node_ids_congr (vm vm' : ViewModel)
    (hg : vm.graph = vm'.graph) (hm : vm.metric = vm'.metric)
    (hs : vm.min_size_mb = vm'.min_size_mb) (hsel : vm.selected = vm'.selected)
    (hmax : vm.max_nodes = vm'.max_nodes) :
    filtered_node_ids vm = filtered_node_ids vm' := by
  unfold filtered_node_ids
  rw [hg, hm, hs, hsel, hmax]

theorem rebuild_preserves_fields (R : TransOps) (vm : ViewModel) :
    (rebuild_render_graph R vm).graph = vm.graph ∧
    (rebuild_render_graph R vm).metric = vm.metric ∧
    (rebuild_render_graph R vm).min_size_mb = vm.min_size_mb ∧
    (rebuild_render_graph R vm).selected = vm.selected ∧
    (rebuild_render_graph R vm).max_nodes = vm.max_nodes := by
  by_cases h : filtered_node_ids vm = [] <;>
    simp [rebuild_render_graph, h]

theorem filtered_node_ids_max_mono (vm : ViewModel) (k k' : ℕ) (hk : k ≤ k')
    (x : String) (hx : x ∈ filtered_node_ids { vm with max_nodes := k }) :
    x ∈ filtered_node_ids { vm with max_nodes := k' } := by
  simp only [filtered_node_ids] at hx ⊢
  refine pick_ranked_mono_mem _ _ ?_ x _ _ hx
  exact min_le_min (max_le_max hk le_rfl) le_rfl

theorem assoc_put_lookup_self {β : Type} :
    ∀ (m : List (String × β)) (k : String) (v : β),
      (assoc_put m k v).lookup k = some v := by
  intro m
  induction m with
  | nil => intro k v; simp [assoc_put, List.lookup]
  | cons q t ih =>
    intro k v
    unfold assoc_put
    by_cases h : q.1 = k
    · rw [if_pos h, h]
      simp [List.lookup]
    · rw [if_neg h]
      have hf : (k == q.1) = false := beq_eq_false_iff_ne.mpr (fun hc => h hc.symm)
      simp [List.lookup, hf]
      exact ih k v

theorem assoc_put_lookup_ne {β : Type} :
    ∀ (m : List (String × β)) (k k' : String) (v : β), k' ≠ k →
      (assoc_put m k v).lookup k' = m.lookup k' := by
  intro m
  induction m with
  | nil =>
    intro k k' v hne
    have hf : (k' == k) = false := beq_eq_false_iff_ne.mpr hne
    simp [assoc_put, List.lookup, hf]
  | cons q t ih =>
    intro k k' v hne
    unfold assoc_put
    by_cases h : q.1 = k
    · rw [if_pos h]
      have hf : (k' == q.1) = false := beq_eq_false_iff_ne.mpr (fun hc => hne (hc.trans h))
      simp [List.lookup, hf]
    · rw [if_neg h]
      by_cases h2 : k' = q.1
      · simp [List.lookup, h2]
      · have hf : (k' == q.1) = false := beq_eq_false_iff_ne.mpr h2
        simp [List.lookup, hf]
        exact ih k k' v hne

theorem assoc_erase_lookup_ne {β : Type} :
    ∀ (m : List (String × β)) (k k' : String), k' ≠ k →
      (assoc_erase m k).lookup k' = m.lookup k' := by
  intro m
  induction m with
  | nil => intro k k' _; simp [assoc_erase]
  | cons q t ih =>
    intro k k' hne
    unfold assoc_erase
    by_cases h : q.1 = k
    · rw [if_pos h]
      have hf : (k' == q.1) = false := beq_eq_false_iff_ne.mpr (fun hc => hne (hc.trans h))
      simp [List.lookup, hf]
    · rw [if_neg h]
      by_cases h2 : k' = q.1
      · simp [List.lookup, h2]
      · have hf : (k' == q.1) = false := beq_eq_false_iff_ne.mpr h2
        simp [List.lookup, hf]
        exact ih k k' hne

theorem foldl_assoc_put_lookup_preserve (nodes : List RenderNode) :
    ∀ (m : List (String × RenderNode)) (k : String) (v : RenderNode),
      m.lookup k = some v → k ∉ nodes.map RenderNode.id →
      (nodes.foldl (fun m n => assoc_put m n.id n) m).lookup k = some v := by
  induction nodes with
  | nil => intro m k v hm _; simpa using hm
  | cons n rest ih =>
    intro m k v hm hk
    rw [List.foldl_cons]
    refine ih _ k v ?_ (fun hc => hk (by simp [hc]))
    rw [assoc_put_lookup_ne m n.id k n (fun hc => hk (by simp [hc]))]
    exact hm

theorem foldl_assoc_put_lookup (nodes : List RenderNode) :
    ∀ (m : List (String × RenderNode)),
      (nodes.map RenderNode.id).Nodup →
      ∀ n1 ∈ nodes,
        (nodes.foldl (fun m n => assoc_put m n.id n) m).lookup n1.id = some n1 := by
  induction nodes with
  | nil => intro m _ n1 hn1; simp at hn1
  | cons n rest ih =>
    intro m hnd n1 hn1
    rw [List.map_cons, List.nodup_cons] at hnd
    rw [List.foldl_cons]
    rcases List.mem_cons.mp hn1 with h1 | h1
    · subst h1
      exact foldl_assoc_put_lookup_preserve rest _ n1.id n1
        (assoc_put_lookup_self m n1.id n1) hnd.1
    · exact ih _ hnd.2 n1 h1

theorem carry_nodes_carries (R : TransOps) (ri : Option ℕ) :
    ∀ (rows : List (ℕ × String × ℕ × ℚ)) (prior : List (String × RenderNode)),
      (rows.map (fun r => r.2.1)).Nodup →
      ∀ row ∈ rows, ∀ n1, prior.lookup row.2.1 = some n1 →
        { n1 with metric_value := row.2.2.1, base_radius := row.2.2.2 } ∈
          carry_nodes R ri rows prior := by
  intro rows
  induction rows with
  | nil => intro prior _ row hrow; simp at hrow
  | cons row0 rest ih =>
    intro prior hnd row hrow n1 hlk
    rw [List.map_cons, List.nodup_cons] at hnd
    rcases List.mem_cons.mp hrow with h1 | h1
    · subst h1
      unfold carry_nodes
      rw [hlk]
      exact List.mem_cons_self _ _
    · have hne : row.2.1 ≠ row0.2.1 := by
        intro hc
        exact hnd.1 (hc ▸ List.mem_map_of_mem (fun r => r.2.1) h1)
      unfold carry_nodes
      cases hlk0 : prior.lookup row0.2.1 with
      | some node0 =>
        refine List.mem_cons_of_mem _ ?_
        refine ih _ hnd.2 row h1 n1 ?_
        rw [assoc_erase_lookup_ne prior row0.2.1 row.2.1 hne]
        exact hlk
      | none =>
        exact List.mem_cons_of_mem _ (ih _ hnd.2 row h1 n1 hlk)

theorem rows_map_ids (ids : List String) (ms : List ℕ) (rs : List ℚ)
    (hm : ms.length = ids.length) (hr : rs.length = ms.length) :
    ((ids.zip (ms.zip rs)).enum).map (fun r => r.2.1) = ids := by
  have h1 : ((ids.zip (ms.zip rs)).enum).map (fun r => r.2.1) =
      ((ids.zip (ms.zip rs)).enum.map Prod.snd).map Prod.fst := by
    rw [List.map_map]
    rfl
  rw [h1, List.enum_map_snd]
  exact List.map_fst_zip _ _ (by simp [hm, hr])

theorem carry_nodes_map_id (R : TransOps) (ri : Option ℕ) :
    ∀ (rows : List (ℕ × String × ℕ × ℚ)) (prior : List (String × RenderNode)),
      (∀ p ∈ prior, p.1 = p.2.id) →
      (carry_nodes R ri rows prior).map RenderNode.id = rows.map (fun r => r.2.1) := by
  intro rows
  induction rows with
  | nil => intro prior _; rfl
  | cons row rest ih =>
    intro prior hinv
    unfold carry_nodes
    cases hlk : prior.lookup row.2.1 with
    | some node =>
      rw [List.map_cons, List.map_cons]
      have hid : node.id = row.2.1 := (hinv _ (lookup_mem hlk)).symm
      rw [ih _ (fun p hp => hinv p ((assoc_erase_sublist prior row.2.1).mem hp))]
      simp [hid]
    | none =>
      rw [List.map_cons, List.map_cons]
      rw [ih _ hinv]
      rfl

set_option maxHeartbeats 2000000 in
theorem rebuild_nodes_ids (R : TransOps) (vm : ViewModel) :
    ((rebuild_render_graph R vm).graph_cache).elim True (fun c =>
      c.nodes.map RenderNode.id = filtered_node_ids vm) := by
  by_cases h : filtered_node_ids vm = []
  · simp [rebuild_render_graph, h]
  · simp only [rebuild_render_graph, if_neg h, Option.elim]
    cases hgc : vm.graph_cache with
    | some cache =>
      rw [carry_nodes_map_id R _ _ _ (fun p hp => by
        rcases foldl_assoc_put_mem cache.nodes [] p hp with h0 | ⟨n0, _, hpe⟩
        · simp at h0
        · rw [hpe])]
      exact rows_map_ids _ _ _ (by simp) (by simp)
    | none =>
      rw [List.map_map]
      exact rows_map_ids _ _ _ (by simp) (by simp)

set_option maxHeartbeats 2000000 in
theorem rebuild_nodes_rows (R : TransOps) (vm : ViewModel) (cache : RenderGraph)
    (hgc : vm.graph_cache = some cache) :
    ((rebuild_render_graph R vm).graph_cache).elim True (fun c =>
      ∃ rows, c.nodes = carry_nodes R c.root_index rows
          (cache.nodes.foldl (fun m n => assoc_put m n.id n) []) ∧
        rows.map (fun r => r.2.1) = filtered_node_ids vm) := by
  by_cases h : filtered_node_ids vm = []
  · simp [rebuild_render_graph, h]
  · simp only [rebuild_render_graph, if_neg h, Option.elim, hgc]
    exact ⟨_, rfl, rows_map_ids _ _ _ (by simp) (by simp)⟩

/-- C7: rebuilding, then rebuilding again with `max_nodes` raised by 1,
carries every node of the first result into the second with identical id,
world position and velocity, updating only its metric value and base
radius; nodes absent from the first result are freshly created by
`make_render_node`. -/
theorem claim_C7_relaxed_filter_carries (R : TransOps) (vm : ViewModel) :
    ((rebuild_render_graph R vm).graph_cache).elim True (fun cache1 =>
      ((rebuild_render_graph R
          { rebuild_render_graph R vm with
              max_nodes := vm.max_nodes + 1 }).graph_cache).elim
        True (fun cache2 =>
          (∀ n1 ∈ cache1.nodes, ∃ n2 ∈ cache2.nodes,
              n2.id = n1.id ∧ n2.world_pos = n1.world_pos ∧
              n2.velocity = n1.velocity ∧
              ∃ m r, n2 = { n1 with metric_value := m, base_radius := r }) ∧
          (∀ n2 ∈ cache2.nodes, n2.id ∉ cache1.nodes.map RenderNode.id →
              ∃ i m r, n2 = make_render_node R n2.id i m r
                (decide (cache2.root_index = some i))))) := by
  set vm2 := { rebuild_render_graph R vm with max_nodes := vm.max_nodes + 1 } with hvm2
  cases h1 : (rebuild_render_graph R vm).graph_cache with
  | none => simp
  | some cache1 =>
    simp only [Option.elim]
    cases h2 : (rebuild_render_graph R vm2).graph_cache with
    | none => simp
    | some cache2 =>
      simp only [Option.elim]
      have hvmgc : vm2.graph_cache = some cache1 := h1
      have hids1 : cache1.nodes.map RenderNode.id = filtered_node_ids vm := by
        have hx := rebuild_nodes_ids R vm
        rw [h1] at hx
        exact hx
      have hnd1 : (filtered_node_ids vm).Nodup := filtered_node_ids_nodup vm
      have hshape := rebuild_nodes_rows R vm2 cache1 hvmgc
      rw [h2] at hshape
      simp only [Option.elim] at hshape
      obtain ⟨rows2, hnodes2, hrowids⟩ := hshape
      have hnd2 : (filtered_node_ids vm2).Nodup := filtered_node_ids_nodup vm2
      have hP := rebuild_preserves_fields R vm
      have hcongr : filtered_node_ids vm2 =
          filtered_node_ids { vm with max_nodes := vm.max_nodes + 1 } := by
        apply filtered_node_ids_congr
        · exact hP.1
        · exact hP.2.1
        · exact hP.2.2.1
        · exact hP.2.2.2.1
        · rfl
      have hsub : ∀ x ∈ filtered_node_ids vm, x ∈ filtered_node_ids vm2 := by
        intro x hx
        rw [hcongr]
        exact filtered_node_ids_max_mono vm vm.max_nodes (vm.max_nodes + 1)
          (Nat.le_succ _) x hx
      constructor
      · intro n1 hn1
        have hid1 : n1.id ∈ filtered_node_ids vm := by
          rw [← hids1]; exact List.mem_map_of_mem _ hn1
        have hid2 : n1.id ∈ rows2.map (fun r => r.2.1) := by
          rw [hrowids]; exact hsub _ hid1
        obtain ⟨row, hrow, hroweq⟩ := List.mem_map.mp hid2
        have hlk : (cache1.nodes.foldl
            (fun m n => assoc_put m n.id n) []).lookup row.2.1 = some n1 := by
          rw [hroweq]
          exact foldl_assoc_put_lookup cache1.nodes []
            (by rw [hids1]; exact hnd1) n1 hn1
        have hmem := carry_nodes_carries R cache2.root_index rows2 _
          (by rw [hrowids]; exact hnd2) row hrow n1 hlk
        rw [← hnodes2] at hmem
        exact ⟨_, hmem, rfl, rfl, rfl, row.2.2.1, row.2.2.2, rfl⟩
      · intro n2 hn2 hnotin
        rw [hnodes2] at hn2
        rcases carry_nodes_mem R cache2.root_index rows2 _ n2 hn2 with
          ⟨p, hp, hpid⟩ | ⟨row, _, hne⟩
        · exfalso
          rcases foldl_assoc_put_mem cache1.nodes [] p hp with h0 | ⟨n0, hn0, hpe⟩
          · simp at h0
          · exact hnotin (by
              rw [hpid, hpe]
              exact List.mem_map_of_mem RenderNode.id hn0)
        · exact ⟨row.1, row.2.2.1, row.2.2.2, by rw [hne]; rfl⟩

/-! ## C6: shortest path from root, concrete BFS behavior -/

/-- Dependency-graph node with the given id and forward references. -/
def nodeRec (id : String) (refs : List String) : NodeRecord :=
  { id := id, full_path := id, nar_size := 1, closure_size := 1,
    references := refs, referrers := [], deriver := none }

/-- The graph root -> A -> B, root -> C of the C6 scenario, plus an
isolated node Z unreachable from the root. -/
def bfsGraph : SystemGraph :=
  { store_dir := "/s", root_id := "root",
    nodes := [("root", nodeRec "root" ["A", "C"]),
              ("A", nodeRec "A" ["B"]),
              ("B", nodeRec "B" []),
              ("C", nodeRec "C" []),
              ("Z", nodeRec "Z" [])],
    edge_count := 3 }

/-- The cyclic graph root -> A, A -> B, B -> A of the C6 scenario. -/
def cycleGraph : SystemGraph :=
  { store_dir := "/s", root_id := "root",
    nodes := [("root", nodeRec "root" ["A"]),
              ("A", nodeRec "A" ["B"]),
              ("B", nodeRec "B" ["A"])],
    edge_count := 3 }

/-- C6: the root-path search is an unweighted BFS over forward references:
on root -> A -> B, root -> C it returns the full ordered path
[root, A, B] to B; an id unreachable from the root (present or absent in
the graph) yields none; and on a cyclic graph the search still terminates
with the shortest path. -/
theorem claim_C6_bfs_shortest_path :
    bfsGraph.shortest_path_from_root "B" = some ["root", "A", "B"] ∧
    bfsGraph.shortest_path_from_root "Z" = none ∧
    bfsGraph.shortest_path_from_root "missing" = none ∧
    cycleGraph.shortest_path_from_root "B" = some ["root", "A", "B"] := by
  decide

/-! ## C1: the related-nodes cap of the highlight expansion -/

theorem collect_adj_growth (fwd : Bool) (node d : ℕ) :
    ∀ (ns : List ℕ) (rn : Finset ℕ) (re : Finset (ℕ × ℕ)) (vis : Finset ℕ)
      (pu : List (ℕ × ℕ)),
      (collect_neighbors_adj fwd node d ns rn re vis pu).rn.card ≤
        rn.card + ns.length := by
  intro ns
  induction ns with
  | nil => intro rn re vis pu; simp [collect_neighbors_adj]
  | cons next rest ih =>
    intro rn re vis pu
    simp only [collect_neighbors_adj]
    have hle := Finset.card_insert_le next rn
    by_cases hstop : (next ∉ rn) ∧ RELATED_NODE_LIMIT ≤ (insert next rn).card
    · rw [if_pos hstop]
      dsimp only
      simp only [List.length_cons]
      omega
    · rw [if_neg hstop]
      by_cases hvis : next ∈ vis
      · rw [if_pos hvis]
        have hrec := ih (insert next rn)
          (insert (if fwd then (node, next) else (next, node)) re) vis pu
        simp only [List.length_cons]
        omega
      · rw [if_neg hvis]
        have hrec := ih (insert next rn)
          (insert (if fwd then (node, next) else (next, node)) re)
          (insert next vis) (pu ++ [(next, d + 1)])
        simp only [List.length_cons]
        omega

theorem collect_adj_cap (fwd : Bool) (node d : ℕ) :
    ∀ (ns : List ℕ) (rn : Finset ℕ) (re : Finset (ℕ × ℕ)) (vis : Finset ℕ)
      (pu : List (ℕ × ℕ)),
      rn.card ≤ RELATED_NODE_LIMIT - 1 →
      (collect_neighbors_adj fwd node d ns rn re vis pu).rn.card ≤
        RELATED_NODE_LIMIT := by
  intro ns
  induction ns with
  | nil =>
    intro rn re vis pu h
    simp only [collect_neighbors_adj]
    simp [RELATED_NODE_LIMIT] at h ⊢
    omega
  | cons next rest ih =>
    intro rn re vis pu h
    simp only [collect_neighbors_adj]
    have hle := Finset.card_insert_le next rn
    by_cases hstop : (next ∉ rn) ∧ RELATED_NODE_LIMIT ≤ (insert next rn).card
    · rw [if_pos hstop]
      dsimp only
      simp [RELATED_NODE_LIMIT] at h ⊢
      omega
    · rw [if_neg hstop]
      have hcard : (insert next rn).card ≤ RELATED_NODE_LIMIT - 1 := by
        by_cases hmem : next ∈ rn
        · rw [Finset.insert_eq_self.mpr hmem]
          exact h
        · have : ¬ RELATED_NODE_LIMIT ≤ (insert next rn).card := fun hc => hstop ⟨hmem, hc⟩
          simp [RELATED_NODE_LIMIT] at this ⊢
          omega
      by_cases hvis : next ∈ vis
      · rw [if_pos hvis]
        exact ih (insert next rn) _ vis pu hcard
      · rw [if_neg hvis]
        exact ih (insert next rn) _ (insert next vis) (pu ++ [(next, d + 1)]) hcard

theorem collect_adj_pushed_depth (fwd : Bool) (node d : ℕ) :
    ∀ (ns : List ℕ) (rn : Finset ℕ) (re : Finset (ℕ × ℕ)) (vis : Finset ℕ)
      (pu : List (ℕ × ℕ)),
      (∀ p ∈ pu, RELATED_DEPTH ≤ p.2) →
      ∀ p ∈ (collect_neighbors_adj fwd node d ns rn re vis pu).pushed,
        RELATED_DEPTH ≤ p.2 := by
  intro ns
  induction ns with
  | nil =>
    intro rn re vis pu hpu p hp
    simp only [collect_neighbors_adj] at hp
    exact hpu p hp
  | cons next rest ih =>
    intro rn re vis pu hpu p hp
    simp only [collect_neighbors_adj] at hp
    by_cases hstop : (next ∉ rn) ∧ RELATED_NODE_LIMIT ≤ (insert next rn).card
    · rw [if_pos hstop] at hp
      exact hpu p hp
    · rw [if_neg hstop] at hp
      by_cases hvis : next ∈ vis
      · rw [if_pos hvis] at hp
        exact ih _ _ vis pu hpu p hp
      · rw [if_neg hvis] at hp
        refine ih _ _ (insert next vis) (pu ++ [(next, d + 1)]) ?_ p hp
        intro q hq
        rcases List.mem_append.mp hq with h1 | h1
        · exact hpu q h1
        · rw [List.mem_singleton] at h1
          subst h1
          simp [RELATED_DEPTH]

theorem collect_loop_adj_skip (adj : List (List ℕ)) (fwd : Bool) :
    ∀ (fuel : ℕ) (queue : List (ℕ × ℕ)) (vis rn : Finset ℕ) (re : Finset (ℕ × ℕ)),
      (∀ it ∈ queue, RELATED_DEPTH ≤ it.2) →
      collect_loop_adj adj fwd fuel queue vis rn re = (rn, re) := by
  intro fuel
  induction fuel with
  | zero => intro queue vis rn re _; rfl
  | succ fuel ih =>
    intro queue vis rn re hq
    cases queue with
    | nil => rfl
    | cons item rest =>
      simp only [collect_loop_adj]
      rw [if_pos (hq item (by simp))]
      exact ih rest vis rn re (fun it hit => hq it (by simp [hit]))

theorem collect_related_paths_result (adj : List (List ℕ)) (sel : ℕ) (fwd : Bool)
    (rn : Finset ℕ) (re : Finset (ℕ × ℕ)) :
    (collect_related_paths adj sel fwd rn re).1 =
      (collect_neighbors_adj fwd sel 0 ((adj.getD sel []).take RELATED_NEIGHBOR_CAP)
        rn re {sel} []).rn := by
  unfold collect_related_paths
  have h161 : HIGHLIGHT_LOOP_FUEL = 160 + 1 := rfl
  rw [h161]
  simp only [collect_loop_adj]
  rw [if_neg (by simp [RELATED_DEPTH])]
  set r := collect_neighbors_adj fwd sel 0 ((adj.getD sel []).take RELATED_NEIGHBOR_CAP)
    rn re {sel} [] with hr
  by_cases hstop : r.stopped
  · rw [if_pos hstop]
  · rw [if_neg hstop]
    have hskip := collect_loop_adj_skip adj fwd 160 ([] ++ r.pushed) r.visited r.rn r.re
      (fun it hit => collect_adj_pushed_depth fwd sel 0 _ rn re {sel} []
        (fun p hp => by simp at hp) it (by simpa using hit))
    rw [hskip]

theorem collect_by_id_fwd_growth_src (idx : List (String × ℕ)) (nid : String) (d : ℕ) :
    ∀ (ns : List String) (rn : Finset ℕ) (re : Finset (ℕ × ℕ)) (vis : Finset String)
      (pu : List (String × ℕ)),
      (∀ i, List.lookup nid idx = some i → i ∈ rn) →
      (collect_neighbors_by_id idx true nid d ns rn re vis pu).rn.card ≤
        rn.card + ns.length := by
  intro ns
  induction ns with
  | nil =>
    intro rn re vis pu _
    simp [collect_neighbors_by_id]
  | cons next rest ih =>
    intro rn re vis pu hsrc
    rcases hs : List.lookup nid idx with _ | si <;>
      rcases ht : List.lookup next idx with _ | ti <;>
      simp only [collect_neighbors_by_id, reduceIte, hs, ht]
    · by_cases hcap : RELATED_NODE_LIMIT ≤ rn.card
      · rw [if_pos hcap]
        dsimp only
        simp only [List.length_cons]
        omega
      · rw [if_neg hcap]
        by_cases hvis : next ∈ vis
        · rw [if_pos hvis]
          have hrec := ih rn re vis pu (fun i hi => by rw [hs] at hi; cases hi)
          simp only [List.length_cons]
          omega
        · rw [if_neg hvis]
          have hrec := ih rn re (insert next vis) (pu ++ [(next, d + 1)])
            (fun i hi => by rw [hs] at hi; cases hi)
          simp only [List.length_cons]
          omega
    · have hle := Finset.card_insert_le ti rn
      by_cases hcap : RELATED_NODE_LIMIT ≤ (insert ti rn).card
      · rw [if_pos hcap]
        dsimp only
        simp only [List.length_cons]
        omega
      · rw [if_neg hcap]
        by_cases hvis : next ∈ vis
        · rw [if_pos hvis]
          have hrec := ih (insert ti rn) re vis pu
            (fun i hi => by rw [hs] at hi; cases hi)
          simp only [List.length_cons]
          omega
        · rw [if_neg hvis]
          have hrec := ih (insert ti rn) re (insert next vis) (pu ++ [(next, d + 1)])
            (fun i hi => by rw [hs] at hi; cases hi)
          simp only [List.length_cons]
          omega
    · have hsi : si ∈ rn := hsrc si hs
      have hc1 : (insert si rn).card = rn.card := Finset.card_insert_of_mem hsi
      by_cases hcap : RELATED_NODE_LIMIT ≤ (insert si rn).card
      · rw [if_pos hcap]
        dsimp only
        simp only [List.length_cons]
        omega
      · rw [if_neg hcap]
        by_cases hvis : next ∈ vis
        · rw [if_pos hvis]
          have hrec := ih (insert si rn) re vis pu
            (fun i hi => by
              rw [hs] at hi
              cases hi
              exact Finset.mem_insert_self si rn)
          simp only [List.length_cons]
          omega
        · rw [if_neg hvis]
          have hrec := ih (insert si rn) re (insert next vis) (pu ++ [(next, d + 1)])
            (fun i hi => by
              rw [hs] at hi
              cases hi
              exact Finset.mem_insert_self si rn)
          simp only [List.length_cons]
          omega
    · have hsi : si ∈ rn := hsrc si hs
      have hc1 : (insert si rn).card = rn.card := Finset.card_insert_of_mem hsi
      have hle := Finset.card_insert_le ti (insert si rn)
      by_cases hcap : RELATED_NODE_LIMIT ≤ (insert ti (insert si rn)).card
      · rw [if_pos hcap]
        dsimp only
        simp only [List.length_cons]
        omega
      · rw [if_neg hcap]
        by_cases hvis : next ∈ vis
        · rw [if_pos hvis]
          have hrec := ih (insert ti (insert si rn)) (insert (si, ti) re) vis pu
            (fun i hi => by
              rw [hs] at hi
              cases hi
              exact Finset.mem_insert_of_mem (Finset.mem_insert_self si rn))
          simp only [List.length_cons]
          omega
        · rw [if_neg hvis]
          have hrec := ih (insert ti (insert si rn)) (insert (si, ti) re)
            (insert next vis) (pu ++ [(next, d + 1)])
            (fun i hi => by
              rw [hs] at hi
              cases hi
              exact Finset.mem_insert_of_mem (Finset.mem_insert_self si rn))
          simp only [List.length_cons]
          omega

theorem collect_by_id_fwd_growth (idx : List (String × ℕ)) (nid : String) (d : ℕ)
    (ns : List String) (rn : Finset ℕ) (re : Finset (ℕ × ℕ)) (vis : Finset String)
    (pu : List (String × ℕ)) :
    (collect_neighbors_by_id idx true nid d ns rn re vis pu).rn.card ≤
      rn.card + 1 + ns.length := by
  cases ns with
  | nil => simp [collect_neighbors_by_id]
  | cons next rest =>
    rcases hs : List.lookup nid idx with _ | si <;>
      rcases ht : List.lookup next idx with _ | ti <;>
      simp only [collect_neighbors_by_id, reduceIte, hs, ht]
    · by_cases hcap : RELATED_NODE_LIMIT ≤ rn.card
      · rw [if_pos hcap]
        dsimp only
        simp only [List.length_cons]
        omega
      · rw [if_neg hcap]
        by_cases hvis : next ∈ vis
        · rw [if_pos hvis]
          have hrec := collect_by_id_fwd_growth_src idx nid d rest rn re vis pu
            (fun i hi => by rw [hs] at hi; cases hi)
          simp only [List.length_cons]
          omega
        · rw [if_neg hvis]
          have hrec := collect_by_id_fwd_growth_src idx nid d rest rn re
            (insert next vis) (pu ++ [(next, d + 1)])
            (fun i hi => by rw [hs] at hi; cases hi)
          simp only [List.length_cons]
          omega
    · have hle := Finset.card_insert_le ti rn
      by_cases hcap : RELATED_NODE_LIMIT ≤ (insert ti rn).card
      · rw [if_pos hcap]
        dsimp only
        simp only [List.length_cons]
        omega
      · rw [if_neg hcap]
        by_cases hvis : next ∈ vis
        · rw [if_pos hvis]
          have hrec := collect_by_id_fwd_growth_src idx nid d rest (insert ti rn) re vis pu
            (fun i hi => by rw [hs] at hi; cases hi)
          simp only [List.length_cons]
          omega
        · rw [if_neg hvis]
          have hrec := collect_by_id_fwd_growth_src idx nid d rest (insert ti rn) re
            (insert next vis) (pu ++ [(next, d + 1)])
            (fun i hi => by rw [hs] at hi; cases hi)
          simp only [List.length_cons]
          omega
    · have hle := Finset.card_insert_le si rn
      by_cases hcap : RELATED_NODE_LIMIT ≤ (insert si rn).card
      · rw [if_pos hcap]
        dsimp only
        simp only [List.length_cons]
        omega
      · rw [if_neg hcap]
        by_cases hvis : next ∈ vis
        · rw [if_pos hvis]
          have hrec := collect_by_id_fwd_growth_src idx nid d rest (insert si rn) re vis pu
            (fun i hi => by
              rw [hs] at hi
              cases hi
              exact Finset.mem_insert_self si rn)
          simp only [List.length_cons]
          omega
        · rw [if_neg hvis]
          have hrec := collect_by_id_fwd_growth_src idx nid d rest (insert si rn) re
            (insert next vis) (pu ++ [(next, d + 1)])
            (fun i hi => by
              rw [hs] at hi
              cases hi
              exact Finset.mem_insert_self si rn)
          simp only [List.length_cons]
          omega
    · have hle1 := Finset.card_insert_le si rn
      have hle := Finset.card_insert_le ti (insert si rn)
      by_cases hcap : RELATED_NODE_LIMIT ≤ (insert ti (insert si rn)).card
      · rw [if_pos hcap]
        dsimp only
        simp only [List.length_cons]
        omega
      · rw [if_neg hcap]
        by_cases hvis : next ∈ vis
        · rw [if_pos hvis]
          have hrec := collect_by_id_fwd_growth_src idx nid d rest
            (insert ti (insert si rn)) (insert (si, ti) re) vis pu
            (fun i hi => by
              rw [hs] at hi
              cases hi
              exact Finset.mem_insert_of_mem (Finset.mem_insert_self si rn))
          simp only [List.length_cons]
          omega
        · rw [if_neg hvis]
          have hrec := collect_by_id_fwd_growth_src idx nid d rest
            (insert ti (insert si rn)) (insert (si, ti) re)
            (insert next vis) (pu ++ [(next, d + 1)])
            (fun i hi => by
              rw [hs] at hi
              cases hi
              exact Finset.mem_insert_of_mem (Finset.mem_insert_self si rn))
          simp only [List.length_cons]
          omega

theorem collect_by_id_rev_cap (idx : List (String × ℕ)) (nid : String) (d : ℕ) :
    ∀ (ns : List String) (rn : Finset ℕ) (re : Finset (ℕ × ℕ)) (vis : Finset String)
      (pu : List (String × ℕ)),
      rn.card ≤ RELATED_NODE_LIMIT - 1 →
      ((∀ i, List.lookup nid idx = some i → i ∈ rn) ∨
        rn.card ≤ RELATED_NODE_LIMIT - 2) →
      (collect_neighbors_by_id idx false nid d ns rn re vis pu).rn.card ≤
        RELATED_NODE_LIMIT := by
  have hL : RELATED_NODE_LIMIT = 280 := rfl
  intro ns
  induction ns with
  | nil =>
    intro rn re vis pu h _
    simp only [collect_neighbors_by_id]
    omega
  | cons next rest ih =>
    intro rn re vis pu h hdi
    rcases hs : List.lookup next idx with _ | si <;>
      rcases ht : List.lookup nid idx with _ | ti <;>
      simp only [collect_neighbors_by_id, reduceIte, Bool.false_eq_true, ite_false, hs, ht]
    · by_cases hcap : RELATED_NODE_LIMIT ≤ rn.card
      · rw [if_pos hcap]
        dsimp only
        omega
      · rw [if_neg hcap]
        by_cases hvis : next ∈ vis
        · rw [if_pos hvis]
          exact ih rn re vis pu h (Or.inl (fun i hi => by rw [ht] at hi; cases hi))
        · rw [if_neg hvis]
          exact ih rn re (insert next vis) (pu ++ [(next, d + 1)]) h
            (Or.inl (fun i hi => by rw [ht] at hi; cases hi))
    · have hb : (insert ti rn).card ≤ RELATED_NODE_LIMIT - 1 := by
        rcases hdi with hfix | hsm
        · rw [Finset.card_insert_of_mem (hfix ti ht)]
          exact h
        · have := Finset.card_insert_le ti rn
          omega
      by_cases hcap : RELATED_NODE_LIMIT ≤ (insert ti rn).card
      · rw [if_pos hcap]
        dsimp only
        omega
      · rw [if_neg hcap]
        by_cases hvis : next ∈ vis
        · rw [if_pos hvis]
          exact ih (insert ti rn) re vis pu hb
            (Or.inl (fun i hi => by
              rw [ht] at hi
              cases hi
              exact Finset.mem_insert_self ti rn))
        · rw [if_neg hvis]
          exact ih (insert ti rn) re (insert next vis) (pu ++ [(next, d + 1)]) hb
            (Or.inl (fun i hi => by
              rw [ht] at hi
              cases hi
              exact Finset.mem_insert_self ti rn))
    · have hle := Finset.card_insert_le si rn
      by_cases hcap : RELATED_NODE_LIMIT ≤ (insert si rn).card
      · rw [if_pos hcap]
        dsimp only
        omega
      · rw [if_neg hcap]
        have hb : (insert si rn).card ≤ RELATED_NODE_LIMIT - 1 := by omega
        by_cases hvis : next ∈ vis
        · rw [if_pos hvis]
          exact ih (insert si rn) re vis pu hb
            (Or.inl (fun i hi => by rw [ht] at hi; cases hi))
        · rw [if_neg hvis]
          exact ih (insert si rn) re (insert next vis) (pu ++ [(next, d + 1)]) hb
            (Or.inl (fun i hi => by rw [ht] at hi; cases hi))
    · have hle1 := Finset.card_insert_le si rn
      have hb2 : (insert ti (insert si rn)).card ≤ RELATED_NODE_LIMIT := by
        rcases hdi with hfix | hsm
        · rw [Finset.card_insert_of_mem (Finset.mem_insert_of_mem (hfix ti ht))]
          omega
        · have := Finset.card_insert_le ti (insert si rn)
          omega
      by_cases hcap : RELATED_NODE_LIMIT ≤ (insert ti (insert si rn)).card
      · rw [if_pos hcap]
        dsimp only
        omega
      · rw [if_neg hcap]
        have hb : (insert ti (insert si rn)).card ≤ RELATED_NODE_LIMIT - 1 := by omega
        by_cases hvis : next ∈ vis
        · rw [if_pos hvis]
          exact ih (insert ti (insert si rn)) (insert (si, ti) re) vis pu hb
            (Or.inl (fun i hi => by
              rw [ht] at hi
              cases hi
              exact Finset.mem_insert_self ti (insert si rn)))
        · rw [if_neg hvis]
          exact ih (insert ti (insert si rn)) (insert (si, ti) re)
            (insert next vis) (pu ++ [(next, d + 1)]) hb
            (Or.inl (fun i hi => by
              rw [ht] at hi
              cases hi
              exact Finset.mem_insert_self ti (insert si rn)))

theorem collect_by_id_pushed_depth (idx : List (String × ℕ)) (fwd : Bool)
    (nid : String) (d : ℕ) :
    ∀ (ns : List String) (rn : Finset ℕ) (re : Finset (ℕ × ℕ)) (vis : Finset String)
      (pu : List (String × ℕ)),
      (∀ p ∈ pu, RELATED_DEPTH ≤ p.2) →
      ∀ p ∈ (collect_neighbors_by_id idx fwd nid d ns rn re vis pu).pushed,
        RELATED_DEPTH ≤ p.2 := by
  cases fwd
  all_goals
    intro ns
    induction ns with
    | nil =>
      intro rn re vis pu hpu p hp
      simp only [collect_neighbors_by_id] at hp
      exact hpu p hp
    | cons next rest ih =>
      intro rn re vis pu hpu p hp
      simp only [collect_neighbors_by_id, reduceIte, Bool.false_eq_true, ite_false] at hp
      split at hp
      · exact hpu p hp
      · split at hp
        · exact ih _ _ vis pu hpu p hp
        · refine ih _ _ (insert next vis) (pu ++ [(next, d + 1)]) ?_ p hp
          intro q hq
          rcases List.mem_append.mp hq with h1 | h1
          · exact hpu q h1
          · rw [List.mem_singleton] at h1
            subst h1
            simp [RELATED_DEPTH]

theorem collect_loop_by_id_skip (g : SystemGraph) (fwd : Bool)
    (idx : List (String × ℕ)) :
    ∀ (fuel : ℕ) (queue : List (String × ℕ)) (vis : Finset String) (rn : Finset ℕ)
      (re : Finset (ℕ × ℕ)),
      (∀ it ∈ queue, RELATED_DEPTH ≤ it.2) →
      collect_loop_by_id g fwd idx fuel queue vis rn re = (rn, re) := by
  intro fuel
  induction fuel with
  | zero => intro queue vis rn re _; rfl
  | succ fuel ih =>
    intro queue vis rn re hq
    cases queue with
    | nil => rfl
    | cons item rest =>
      simp only [collect_loop_by_id]
      rw [if_pos (hq item (by simp))]
      exact ih rest vis rn re (fun it hit => hq it (by simp [hit]))

theorem collect_related_paths_by_id_result (g : SystemGraph) (sel : String)
    (fwd : Bool) (idx : List (String × ℕ)) (rn : Finset ℕ) (re : Finset (ℕ × ℕ)) :
    (collect_related_paths_by_id g sel fwd idx rn re).1 = rn ∨
    ∃ node, g.nodes.lookup sel = some node ∧
      (collect_related_paths_by_id g sel fwd idx rn re).1 =
        (collect_neighbors_by_id idx fwd sel 0
          ((if fwd then node.references else node.referrers).take RELATED_NEIGHBOR_CAP)
          rn re {sel} []).rn := by
  unfold collect_related_paths_by_id
  have h161 : HIGHLIGHT_LOOP_FUEL = 160 + 1 := rfl
  rw [h161]
  simp only [collect_loop_by_id]
  rw [if_neg (by simp [RELATED_DEPTH])]
  cases hlk : List.lookup sel g.nodes with
  | none =>
    left
    rfl
  | some node =>
    dsimp only
    set r := collect_neighbors_by_id idx fwd sel 0
      ((if fwd then node.references else node.referrers).take RELATED_NEIGHBOR_CAP)
      rn re {sel} [] with hr
    by_cases hstop : r.stopped
    · right
      exact ⟨node, rfl, by rw [if_pos hstop]⟩
    · right
      refine ⟨node, rfl, ?_⟩
      rw [if_neg hstop]
      have hskip := collect_loop_by_id_skip g fwd idx 160 ([] ++ r.pushed)
        r.visited r.rn r.re
        (fun it hit => collect_by_id_pushed_depth idx fwd sel 0 _ rn re {sel} []
          (fun p hp => by simp at hp) it (by simpa using hit))
      rw [hskip]

theorem by_id_fwd_call_growth (g : SystemGraph) (sel : String)
    (idx : List (String × ℕ)) (rn : Finset ℕ) (re : Finset (ℕ × ℕ)) :
    (collect_related_paths_by_id g sel true idx rn re).1.card ≤
      rn.card + 1 + RELATED_NEIGHBOR_CAP := by
  rcases collect_related_paths_by_id_result g sel true idx rn re with h | ⟨node, _, h⟩
  · rw [h]; omega
  · rw [h]
    refine le_trans (collect_by_id_fwd_growth idx sel 0 _ rn re {sel} []) ?_
    have hlen := List.length_take RELATED_NEIGHBOR_CAP
      (if (true : Bool) then node.references else node.referrers)
    omega

theorem by_id_rev_call_cap (g : SystemGraph) (sel : String)
    (idx : List (String × ℕ)) (rn : Finset ℕ) (re : Finset (ℕ × ℕ))
    (h : rn.card ≤ RELATED_NODE_LIMIT - 2) :
    (collect_related_paths_by_id g sel false idx rn re).1.card ≤
      RELATED_NODE_LIMIT := by
  have hL : RELATED_NODE_LIMIT = 280 := rfl
  rcases collect_related_paths_by_id_result g sel false idx rn re with heq | ⟨node, _, heq⟩
  · rw [heq]; omega
  · rw [heq]
    exact collect_by_id_rev_cap idx sel 0 _ rn re {sel} [] (by omega) (Or.inr h)

theorem collect_related_paths_growth (adj : List (List ℕ)) (sel : ℕ) (fwd : Bool)
    (rn : Finset ℕ) (re : Finset (ℕ × ℕ)) :
    (collect_related_paths adj sel fwd rn re).1.card ≤
      rn.card + RELATED_NEIGHBOR_CAP := by
  rw [collect_related_paths_result]
  refine le_trans (collect_adj_growth fwd sel 0 _ rn re {sel} []) ?_
  have hlen := List.length_take RELATED_NEIGHBOR_CAP (adj.getD sel [])
  omega

theorem collect_related_paths_cap (adj : List (List ℕ)) (sel : ℕ) (fwd : Bool)
    (rn : Finset ℕ) (re : Finset (ℕ × ℕ)) (h : rn.card ≤ RELATED_NODE_LIMIT - 1) :
    (collect_related_paths adj sel fwd rn re).1.card ≤ RELATED_NODE_LIMIT := by
  rw [collect_related_paths_result]
  exact collect_adj_cap fwd sel 0 _ rn re {sel} [] h

/-- C1: the related-nodes set built by the highlight expansion (forward
plus reverse passes combined) never exceeds the 280-entry cap, for every
graph, render cache and selection — both for the id-based walk over the
full graph and for the index-based walk over the filtered adjacency
lists. -/
theorem claim_C1_related_nodes_cap (g : SystemGraph) (cache : RenderGraph)
    (selected_id : String) (selected_index : ℕ) :
    ((build_highlight_state_for_selected_id g cache selected_id).elim True
      (fun st => st.related_nodes.card ≤ RELATED_NODE_LIMIT)) ∧
    (build_highlight_state cache selected_index).related_nodes.card ≤
      RELATED_NODE_LIMIT := by
  have hL : RELATED_NODE_LIMIT = 280 := rfl
  have hC : RELATED_NEIGHBOR_CAP = 160 := rfl
  constructor
  · unfold build_highlight_state_for_selected_id
    by_cases hsel : ((g.nodes.lookup selected_id).isSome = false)
    · rw [if_pos hsel]
      simp
    · rw [if_neg hsel]
      simp only [Option.elim]
      refine by_id_rev_call_cap g selected_id cache.index_by_id _ _ ?_
      have h1 := by_id_fwd_call_growth g selected_id cache.index_by_id ∅ ∅
      simp only [Finset.card_empty] at h1
      omega
  · unfold build_highlight_state
    dsimp only
    refine collect_related_paths_cap cache.incoming selected_index false _ _ ?_
    have h1 := collect_related_paths_growth cache.outgoing selected_index true
      {selected_index} ∅
    simp only [Finset.card_singleton] at h1
    omega
